import Mathlib

/-
Verification of the tendermint `state` package (src/state/state.go) against its
natural-language specification.  The state machine itself (ExecTx, AppendBlock,
the validator lifecycle helpers, Save/LoadState) is transcribed directly from
src/state/state.go.  Packages the source imports but that are not part of this
repository snapshot (account, block, binary, merkle, and the ValidatorSet /
ValidatorInfo files of the state package) are modelled from the specification;
each such definition carries a doc comment saying so.

Go's uint64 arithmetic wraps modulo 2^64; the embedding applies `w64` exactly
where the source performs uint64 additions, multiplications or increments.
-/

set_option maxRecDepth 10000

namespace Tendermint

/-- Go uint64 arithmetic wraps modulo `2^64`. -/
def w64 (n : Nat) : Nat := n % 2 ^ 64

/-- `unbondingPeriodBlocks = uint(60 * 24 * 365)` from state.go. -/
def unbondingPeriodBlocks : Nat := 60 * 24 * 365

/-- `validatorTimeoutBlocks = uint(10)` from state.go. -/
def validatorTimeoutBlocks : Nat := 10

/-- `minBondAmount = uint64(1)` from state.go; declared and never used there. -/
def minBondAmount : Nat := 1

/-- Modelled from the spec (§3): a tagged variant with a `Nil` case (unknown key)
and an `Ed25519` case.  A key is identified by its fingerprint, which is also the
address it derives; `Nil.verify` always returns false. -/
inductive PubKey where
  | nil
  | ed (key : Nat)
  deriving DecidableEq

/-- Modelled from the spec (§3): `address()` of a public key.  The source never
calls it on a `Nil` key along the paths verified here. -/
def PubKey.address : PubKey → Nat
  | .nil => 0
  | .ed k => k

/-- Modelled from the spec (§3, §4.4): a transaction input with its signature
field stripped, as it appears inside a canonical signing payload. -/
structure TxInputCore where
  address : Nat
  amount : Nat
  sequence : Nat
  pubKey : PubKey
  deriving DecidableEq

/-- `TxOutput{address, amount}` from the spec (§3); the struct itself lives in
the block package, outside src/. -/
structure TxOutput where
  address : Nat
  amount : Nat
  deriving DecidableEq

/-- Vote types (spec §3): Prevote, Precommit, Commit. -/
inductive VoteType where
  | prevote
  | precommit
  | commit
  deriving DecidableEq

/-- Modelled from the spec (§4.4, §6): the deterministic canonical signing
payload of a transaction or vote, with input signatures and pub-keys
canonicalized.  Distinct messages have distinct payloads by construction. -/
inductive SignPayload where
  | send (ins : List TxInputCore) (outs : List TxOutput)
  | bond (ins : List TxInputCore) (unbondTo : List TxOutput) (pubKey : PubKey)
  | unbond (address : Nat) (height : Nat)
  | rebond (address : Nat) (height : Nat)
  | vote (height : Nat) (round : Nat) (ty : VoteType) (blockHash : Nat) (blockParts : Nat)
  deriving DecidableEq

/-- Modelled from the spec (§1, §3): signatures are opaque crypto; a signature is
symbolically the signing key together with the signed payload, `none` being the
empty signature (`IsZero`). -/
abbrev Sig := Option (Nat × SignPayload)

/-- Modelled from the spec (§3): `verify(msg, sig)`; a `Nil` key verifies
nothing, an Ed25519 key verifies exactly its own signatures over the payload. -/
def PubKey.verifyBytes : PubKey → SignPayload → Sig → Bool
  | .nil, _, _ => false
  | .ed _, _, none => false
  | .ed k, m, some (k', m') => decide (k = k' ∧ m = m')

/-- `TxInput{address, amount, sequence, signature, pub_key}` (spec §3). -/
structure TxInput where
  address : Nat
  amount : Nat
  sequence : Nat
  signature : Sig
  pubKey : PubKey
  deriving DecidableEq

/-- The signature-stripped core of an input, used in signing payloads. -/
def TxInput.core (i : TxInput) : TxInputCore :=
  ⟨i.address, i.amount, i.sequence, i.pubKey⟩

/-- `Vote{height, round, type, block_hash, block_parts, signature}` (spec §3). -/
structure Vote where
  height : Nat
  round : Nat
  ty : VoteType
  blockHash : Nat
  blockParts : Nat
  signature : Sig
  deriving DecidableEq

/-- Modelled from the spec (§6): sign-bytes of a vote (signature excluded). -/
def Vote.signBytes (v : Vote) : SignPayload :=
  .vote v.height v.round v.ty v.blockHash v.blockParts

/-- `Commit{round, signature}` (spec §3); lives in the block package. -/
structure Commit where
  round : Nat
  signature : Sig
  deriving DecidableEq

/-- `IsZero()` holds iff the signature is empty (spec §3). -/
def Commit.isZero (c : Commit) : Bool := c.signature.isNone

/-- `Account{address, pub_key, sequence, balance}` (spec §3); lives in the
account package. -/
structure Account where
  address : Nat
  pubKey : PubKey
  sequence : Nat
  balance : Nat
  deriving DecidableEq

/-- Modelled from the spec (§3): `Validator` of the state package (its file is
not in src/). -/
structure Validator where
  address : Nat
  pubKey : PubKey
  bondHeight : Nat
  unbondHeight : Nat
  lastCommitHeight : Nat
  votingPower : Nat
  accum : Int
  deriving DecidableEq

/-- Modelled from the spec (§3): `ValidatorInfo`, the permanent historical
record per validator address (its file is not in src/). -/
structure ValidatorInfo where
  address : Nat
  pubKey : PubKey
  unbondTo : List TxOutput
  firstBondHeight : Nat
  firstBondAmount : Nat
  releasedHeight : Nat
  destroyedHeight : Nat
  destroyedAmount : Nat
  deriving DecidableEq

/-- Modelled from the spec (§4.1): the authenticated ordered map (merkle.Tree)
behaves as a key-value map; we represent it as an association list with unique
keys.  `get`. -/
def treeGet {α : Type} : List (Nat × α) → Nat → Option α
  | [], _ => none
  | (k, v) :: rest, k' => if k = k' then some v else treeGet rest k'

/-- Modelled from the spec (§4.1): map `set` — replace the entry if the key is
present, append otherwise. -/
def treeSet {α : Type} : List (Nat × α) → Nat → α → List (Nat × α)
  | [], k, v => [(k, v)]
  | (k', v') :: rest, k, v =>
    if k' = k then (k, v) :: rest else (k', v') :: treeSet rest k v

/-- Modelled from the spec (§4.2): `get_by_address` returns index and validator;
auxiliary recursion carrying the running index. -/
def vsGetAux : List Validator → Nat → Nat → Option (Nat × Validator)
  | [], _, _ => none
  | v :: rest, addr, i =>
    if v.address = addr then some (i, v) else vsGetAux rest addr (i + 1)

/-- Modelled from the spec (§4.2): `get_by_address(addr) → (index?, v?)`. -/
def vsGet (vals : List Validator) (addr : Nat) : Option (Nat × Validator) :=
  vsGetAux vals addr 0

/-- Modelled from the spec (§4.2): `add(v)` keeps the set sorted by address and
fails (Go returns false) if the address is already present. -/
def vsAdd : List Validator → Validator → Option (List Validator)
  | [], v => some [v]
  | w :: rest, v =>
    if v.address < w.address then some (v :: w :: rest)
    else if v.address = w.address then none
    else (vsAdd rest v).map (fun l => w :: l)

/-- Modelled from the spec (§4.2): `remove(addr)` returns the removed validator
and the remaining set, failing if the address is absent. -/
def vsRemove : List Validator → Nat → Option (Validator × List Validator)
  | [], _ => none
  | w :: rest, addr =>
    if w.address = addr then some (w, rest)
    else (vsRemove rest addr).map (fun p => (p.1, w :: p.2))

/-- Modelled from the spec (§4.2): `update(v)` replaces the entry with the same
address in place, failing if absent. -/
def vsUpdate : List Validator → Validator → Option (List Validator)
  | [], _ => none
  | w :: rest, v =>
    if w.address = v.address then some (v :: rest)
    else (vsUpdate rest v).map (fun l => w :: l)

/-- Modelled from the spec (§4.2): `total_voting_power() → u64`, the uint64 sum
of the members' voting powers. -/
def vsTotalPower (vals : List Validator) : Nat :=
  vals.foldl (fun t v => w64 (t + v.votingPower)) 0

/-- The exact (unbounded) sum of voting powers, used to compare the source's
uint64 arithmetic with the spec's rational threshold. -/
def exactTotalPower (vals : List Validator) : Nat :=
  (vals.map Validator.votingPower).sum

/-- The `State` struct of state.go (DB handle omitted; the two merkle trees are
the association lists above). -/
structure State where
  lastBlockHeight : Nat
  lastBlockHash : Nat
  lastBlockParts : Nat
  lastBlockTime : Nat
  bonded : List Validator
  unbonding : List Validator
  accounts : List (Nat × Account)
  validatorInfos : List (Nat × ValidatorInfo)
  deriving DecidableEq

/-- `GetAccount` from state.go (the defensive copy is implicit in a pure
model). -/
def State.getAccount (s : State) (addr : Nat) : Option Account :=
  treeGet s.accounts addr

/-- `GetValidatorInfo` from state.go. -/
def State.getValidatorInfo (s : State) (addr : Nat) : Option ValidatorInfo :=
  treeGet s.validatorInfos addr

/-- `SetValidatorInfo` from state.go: stores the record under its address. -/
def State.setValidatorInfo (s : State) (vi : ValidatorInfo) : State :=
  { s with validatorInfos := treeSet s.validatorInfos vi.address vi }

/-- `UpdateAccounts` from state.go: write every working account back into the
accounts tree (the Go map iteration order is immaterial since addresses are
distinct; the model folds in list order). -/
def State.updateAccounts (s : State) (accs : List (Nat × Account)) : State :=
  { s with accounts := accs.foldl (fun t kv => treeSet t kv.1 kv.2) s.accounts }

/-- The balance of an address in a state, 0 when the account does not exist
(the balance a fresh output account is synthesized with). -/
def accBalance0 (s : State) (addr : Nat) : Nat :=
  match s.getAccount addr with
  | some a => a.balance
  | none => 0

/-- Transaction-interpreter rejection errors (spec §6); the `msg` case carries
the text of the source's `errors.New` errors. -/
inductive TxErr where
  | duplicateAddress
  | invalidAddress
  | invalidPubKey
  | unknownPubKey
  | invalidSignature
  | invalidSequence
  | insufficientFunds
  | msg (m : String)
  deriving DecidableEq

/-- Modelled from the spec (§4.3 "basic shape check"): `TxInput.ValidateBasic`
lives in the block package, outside src/; inputs are well-shaped by construction
in this model, so the check passes. -/
def TxInput.validateBasic (_ : TxInput) : Except TxErr Unit := .ok ()

/-- Modelled from the spec (§4.3 "basic shape check"): `TxOutput.ValidateBasic`
lives in the block package, outside src/; outputs are well-shaped by
construction in this model, so the check passes. -/
def TxOutput.validateBasic (_ : TxOutput) : Except TxErr Unit := .ok ()

/-- Modelled from the spec (§3): `pub_key.validate_basic()`; a `Nil` key is not
a valid bonding key, a concrete key is. -/
def PubKey.validateBasic : PubKey → Except TxErr Unit
  | .nil => .error (.msg "Invalid PubKey")
  | .ed _ => .ok ()

/-- The input-walking loop of `GetOrMakeAccounts` from state.go, carrying the
working account map and returning it together with the canonicalized inputs
(the source mutates `in.PubKey` in place; the model returns the new inputs). -/
def getOrMakeIns (s : State) :
    List (Nat × Account) → List TxInput →
    Except TxErr (List (Nat × Account) × List TxInput)
  | accs, [] => .ok (accs, [])
  | accs, i :: rest =>
    if (treeGet accs i.address).isSome then .error .duplicateAddress
    else
      match s.getAccount i.address with
      | none => .error .invalidAddress
      | some a =>
        match a.pubKey with
        | .nil =>
          match i.pubKey with
          | .nil => .error .unknownPubKey
          | .ed k =>
            if (PubKey.ed k).address ≠ a.address then .error .invalidPubKey
            else
              match getOrMakeIns s (accs ++ [(i.address, { a with pubKey := .ed k })]) rest with
              | .error e => .error e
              | .ok (m, insC) => .ok (m, i :: insC)
        | .ed _ =>
          match getOrMakeIns s (accs ++ [(i.address, a)]) rest with
          | .error e => .error e
          | .ok (m, insC) => .ok (m, { i with pubKey := .nil } :: insC)

/-- The output-walking loop of `GetOrMakeAccounts` from state.go: duplicates are
rejected, a missing output account is synthesized with zero balance. -/
def getOrMakeOuts (s : State) :
    List (Nat × Account) → List TxOutput → Except TxErr (List (Nat × Account))
  | accs, [] => .ok accs
  | accs, o :: rest =>
    if (treeGet accs o.address).isSome then .error .duplicateAddress
    else
      match s.getAccount o.address with
      | some a => getOrMakeOuts s (accs ++ [(o.address, a)]) rest
      | none =>
        getOrMakeOuts s
          (accs ++ [(o.address, { address := o.address, pubKey := .nil, sequence := 0, balance := 0 })])
          rest

/-- `GetOrMakeAccounts` from state.go. -/
def getOrMakeAccounts (s : State) (ins : List TxInput) (outs : List TxOutput) :
    Except TxErr (List (Nat × Account) × List TxInput) :=
  match getOrMakeIns s [] ins with
  | .error e => .error e
  | .ok (m, insC) =>
    match getOrMakeOuts s m outs with
    | .error e => .error e
    | .ok m2 => .ok (m2, insC)

/-- Outcome of a validation helper that may also panic (`crash`). -/
inductive VRes (α : Type) where
  | ok (a : α)
  | err (e : TxErr)
  | crash
  deriving DecidableEq

/-- `ValidateInputs` from state.go: per input, basic check, signature check,
sequence check (`acc.Sequence+1 != in.Sequence`), funds check; accumulates the
uint64 input total.  A missing working account is a panic (`crash`). -/
def validateInputsAux (accs : List (Nat × Account)) (signBytes : SignPayload) :
    List TxInput → Nat → VRes Nat
  | [], total => .ok total
  | i :: rest, total =>
    match treeGet accs i.address with
    | none => .crash
    | some a =>
      match i.validateBasic with
      | .error e => .err e
      | .ok _ =>
        if ¬ a.pubKey.verifyBytes signBytes i.signature then .err .invalidSignature
        else if w64 (a.sequence + 1) ≠ i.sequence then .err .invalidSequence
        else if a.balance < i.amount then .err .insufficientFunds
        else validateInputsAux accs signBytes rest (w64 (total + i.amount))

/-- `ValidateOutputs` from state.go: per output basic check, accumulating the
uint64 output total. -/
def validateOutputsAux : List TxOutput → Nat → Except TxErr Nat
  | [], total => .ok total
  | o :: rest, total =>
    match o.validateBasic with
    | .error e => .error e
    | .ok _ => validateOutputsAux rest (w64 (total + o.amount))

/-- `ValidateOutputs` from state.go. -/
def validateOutputs (outs : List TxOutput) : Except TxErr Nat :=
  validateOutputsAux outs 0

/-- `AdjustByInputs` from state.go: deduct each input amount and increment the
sequence; missing account or insufficient funds is a panic (`none`). -/
def adjustByInputs : List (Nat × Account) → List TxInput → Option (List (Nat × Account))
  | accs, [] => some accs
  | accs, i :: rest =>
    match treeGet accs i.address with
    | none => none
    | some a =>
      if a.balance < i.amount then none
      else
        adjustByInputs
          (treeSet accs i.address
            { a with balance := a.balance - i.amount, sequence := w64 (a.sequence + 1) })
          rest

/-- `AdjustByOutputs` from state.go: credit each output amount; a missing
account is a panic (`none`). -/
def adjustByOutputs : List (Nat × Account) → List TxOutput → Option (List (Nat × Account))
  | accs, [] => some accs
  | accs, o :: rest =>
    match treeGet accs o.address with
    | none => none
    | some a =>
      adjustByOutputs (treeSet accs o.address { a with balance := w64 (a.balance + o.amount) }) rest

/-- The five transaction kinds (spec §3). -/
inductive Tx where
  | send (ins : List TxInput) (outs : List TxOutput)
  | bond (ins : List TxInput) (unbondTo : List TxOutput) (pubKey : PubKey)
  | unbond (address : Nat) (height : Nat) (signature : Sig)
  | rebond (address : Nat) (height : Nat) (signature : Sig)
  | dupeout (address : Nat) (voteA : Vote) (voteB : Vote)
  deriving DecidableEq

/-- `unbondValidator` from state.go: move from bonded to unbonding, stamping
`UnbondHeight = LastBlockHeight + 1`; failures of the set operations are
panics (`none`). -/
def unbondValidator (s : State) (val : Validator) : Option State :=
  match vsRemove s.bonded val.address with
  | none => none
  | some (v, bonded') =>
    match vsAdd s.unbonding { v with unbondHeight := w64 (s.lastBlockHeight + 1) } with
    | none => none
    | some unbonding' => some { s with bonded := bonded', unbonding := unbonding' }

/-- `rebondValidator` from state.go: move from unbonding back to bonded,
stamping `BondHeight = LastBlockHeight + 1`. -/
def rebondValidator (s : State) (val : Validator) : Option State :=
  match vsRemove s.unbonding val.address with
  | none => none
  | some (v, unbonding') =>
    match vsAdd s.bonded { v with bondHeight := w64 (s.lastBlockHeight + 1) } with
    | none => none
    | some bonded' => some { s with bonded := bonded', unbonding := unbonding' }

/-- `releaseValidator` from state.go: stamp `ReleasedHeight`, credit the
recorded `UnbondTo` outputs, remove from the unbonding set.  Every failure
(missing info, `GetOrMakeAccounts` error, missing account, failed remove) is a
panic (`none`). -/
def releaseValidator (s : State) (val : Validator) : Option State :=
  match s.getValidatorInfo val.address with
  | none => none
  | some vi =>
    let vi' := { vi with releasedHeight := w64 (s.lastBlockHeight + 1) }
    let s1 := s.setValidatorInfo vi'
    match getOrMakeAccounts s1 [] vi'.unbondTo with
    | .error _ => none
    | .ok (accs, _) =>
      match adjustByOutputs accs vi'.unbondTo with
      | none => none
      | some accs' =>
        let s2 := s1.updateAccounts accs'
        match vsRemove s2.unbonding val.address with
        | none => none
        | some (_, unbonding') => some { s2 with unbonding := unbonding' }

/-- `destroyValidator` from state.go: stamp `DestroyedHeight` and
`DestroyedAmount`, then remove from bonded, falling back to unbonding; both
failing is a panic (`none`). -/
def destroyValidator (s : State) (val : Validator) : Option State :=
  match s.getValidatorInfo val.address with
  | none => none
  | some vi =>
    let vi' := { vi with destroyedHeight := w64 (s.lastBlockHeight + 1),
                         destroyedAmount := val.votingPower }
    let s1 := s.setValidatorInfo vi'
    match vsRemove s1.bonded val.address with
    | some (_, bonded') => some { s1 with bonded := bonded' }
    | none =>
      match vsRemove s1.unbonding val.address with
      | some (_, unbonding') => some { s1 with unbonding := unbonding' }
      | none => none

/-- Outcome of `ExecTx`: success with the new state, an error return carrying
the state as it is at the moment of the return, or a panic. -/
inductive ExecOut where
  | ok (s : State)
  | err (e : TxErr) (s : State)
  | crash
  deriving DecidableEq

/-- Modelled from the spec (§4.4): sign-bytes of a SendTx over the
canonicalized inputs. -/
def sendSignBytes (ins : List TxInput) (outs : List TxOutput) : SignPayload :=
  .send (ins.map TxInput.core) outs

/-- Modelled from the spec (§4.4): sign-bytes of a BondTx over the
canonicalized inputs. -/
def bondSignBytes (ins : List TxInput) (unbondTo : List TxOutput) (pk : PubKey) : SignPayload :=
  .bond (ins.map TxInput.core) unbondTo pk

/-- `ExecTx` from state.go, transcribed case by case.  Error returns carry the
state exactly as the source leaves it at that return (validation precedes every
mutation).  Go panics — including the unchecked nil dereference of the accused
validator in the DupeoutTx case — are `crash`. -/
def execTx (s : State) : Tx → ExecOut
  | .send ins outs =>
    match getOrMakeAccounts s ins outs with
    | .error e => .err e s
    | .ok (accs, insC) =>
      match validateInputsAux accs (sendSignBytes insC outs) insC 0 with
      | .crash => .crash
      | .err e => .err e s
      | .ok inTotal =>
        match validateOutputs outs with
        | .error e => .err e s
        | .ok outTotal =>
          if inTotal < outTotal then .err .insufficientFunds s
          else
            match adjustByInputs accs insC with
            | none => .crash
            | some accs1 =>
              match adjustByOutputs accs1 outs with
              | none => .crash
              | some accs2 => .ok (s.updateAccounts accs2)
  | .bond ins unbondTo pubKey =>
    match s.getValidatorInfo pubKey.address with
    | some _ => .err (.msg "Adding coins to existing validators not yet supported") s
    | none =>
      match getOrMakeAccounts s ins [] with
      | .error e => .err e s
      | .ok (accs, insC) =>
        match validateInputsAux accs (bondSignBytes insC unbondTo pubKey) insC 0 with
        | .crash => .crash
        | .err e => .err e s
        | .ok inTotal =>
          match pubKey.validateBasic with
          | .error e => .err e s
          | .ok _ =>
            match validateOutputs unbondTo with
            | .error e => .err e s
            | .ok outTotal =>
              if inTotal < outTotal then .err .insufficientFunds s
              else
                match adjustByInputs accs insC with
                | none => .crash
                | some accs1 =>
                  let s1 := State.updateAccounts s accs1
                  let s2 := s1.setValidatorInfo
                    { address := pubKey.address, pubKey := pubKey, unbondTo := unbondTo,
                      firstBondHeight := w64 (s.lastBlockHeight + 1),
                      firstBondAmount := outTotal,
                      releasedHeight := 0, destroyedHeight := 0, destroyedAmount := 0 }
                  match vsAdd s2.bonded
                    { address := pubKey.address, pubKey := pubKey,
                      bondHeight := w64 (s.lastBlockHeight + 1), unbondHeight := 0,
                      lastCommitHeight := 0, votingPower := outTotal, accum := 0 } with
                  | none => .crash
                  | some bonded' => .ok { s2 with bonded := bonded' }
  | .unbond address height signature =>
    match vsGet s.bonded address with
    | none => .err .invalidAddress s
    | some (_, val) =>
      if ¬ val.pubKey.verifyBytes (.unbond address height) signature then
        .err .invalidSignature s
      else if height ≤ val.lastCommitHeight then .err (.msg "Invalid unbond height") s
      else
        match unbondValidator s val with
        | none => .crash
        | some s' => .ok s'
  | .rebond address height signature =>
    match vsGet s.unbonding address with
    | none => .err .invalidAddress s
    | some (_, val) =>
      if ¬ val.pubKey.verifyBytes (.rebond address height) signature then
        .err .invalidSignature s
      else if height ≠ w64 (s.lastBlockHeight + 1) then .err (.msg "Invalid rebond height") s
      else
        match rebondValidator s val with
        | none => .crash
        | some s' => .ok s'
  | .dupeout address voteA voteB =>
    match vsGet s.bonded address with
    | none => .crash
    | some (_, accused) =>
      if ¬ (accused.pubKey.verifyBytes voteA.signBytes voteA.signature &&
            accused.pubKey.verifyBytes voteB.signBytes voteB.signature) then
        .err .invalidSignature s
      else if voteA.height ≠ voteB.height then .err (.msg "DupeoutTx heights don't match") s
      else if voteA.ty = VoteType.commit ∧ voteA.round < voteB.round then
        match destroyValidator s accused with
        | none => .crash
        | some s' => .ok s'
      else if voteA.round ≠ voteB.round then .err (.msg "DupeoutTx rounds don't match") s
      else if voteA.ty ≠ voteB.ty then .err (.msg "DupeoutTx types don't match") s
      else if voteA.blockHash = voteB.blockHash then
        .err (.msg "DupeoutTx blockhashes shouldn't match") s
      else
        match destroyValidator s accused with
        | none => .crash
        | some s' => .ok s'

/-- A state hash (spec §4.6): a Merkle aggregation over the four components.
Modelled from the spec as an injective commitment — the hash primitive is
assumed collision-free, so we represent the hash by the committed contents. -/
structure SHash where
  bonded : List Validator
  unbonding : List Validator
  accounts : List (Nat × Account)
  validatorInfos : List (Nat × ValidatorInfo)
  deriving DecidableEq

/-- `State.Hash()` from state.go: depends on the two validator sets and the two
trees only, never on the `LastBlock*` fields. -/
def State.hashOf (s : State) : SHash :=
  ⟨s.bonded, s.unbonding, s.accounts, s.validatorInfos⟩

/-- `Block` (spec §3); the struct lives in the block package, outside src/.
`stateHash = none` models a nil StateHash. -/
structure Block where
  height : Nat
  time : Nat
  lastBlockHash : Nat
  lastBlockParts : Nat
  stateHash : Option SHash
  commits : List Commit
  txs : List Tx
  deriving DecidableEq

/-- Modelled from the spec (§1): the opaque deterministic block hash used to
chain blocks; any injective-enough deterministic function serves the model. -/
def blockHashOf (b : Block) : Nat := Nat.pair b.height b.time

/-- Modelled from the spec (§4.5 step 1): `Block.ValidateBasic` lives in the
block package, outside src/.  It checks height succession, last-block hash and
parts linkage, and time monotonicity; internal well-formedness is trivial in
this model. -/
def Block.validateBasic (b : Block) (lastH lastHash lastParts lastTime : Nat) : Bool :=
  decide (b.height = w64 (lastH + 1)) && decide (b.lastBlockHash = lastHash) &&
  decide (b.lastBlockParts = lastParts) && decide (lastTime < b.time)

/-- Outcome of the commit-aggregation iteration of `AppendBlock`: the
accumulated uint64 voting power, or the "Invalid validation signature" abort. -/
inductive CRes where
  | ok (sum : Nat)
  | err
  deriving DecidableEq

/-- The `BondedValidators.Iterate` loop of `AppendBlock` (state.go): walk
validators and commits in parallel; skip zero commits; verify each non-zero
commit signature over the reconstructed vote and accumulate the validator's
voting power (uint64); stop with an error at the first invalid signature. -/
def sumCommitsAux (b : Block) : List Validator → List Commit → Nat → CRes
  | v :: vrest, c :: crest, sum =>
    if c.isZero then sumCommitsAux b vrest crest sum
    else
      if v.pubKey.verifyBytes
          (.vote (b.height - 1) c.round VoteType.commit b.lastBlockHash b.lastBlockParts)
          c.signature then
        sumCommitsAux b vrest crest (w64 (sum + v.votingPower))
      else .err
  | _, _, sum => .ok sum

/-- Commit aggregation over a state's bonded set. -/
def sumCommits (s : State) (b : Block) : CRes :=
  sumCommitsAux b s.bonded b.commits 0

/-- Block-application errors (spec §6). -/
inductive BErr where
  | basic
  | msg (m : String)
  | invalidTx (tx : Tx) (e : TxErr)
  deriving DecidableEq

/-- Outcome of `AppendBlock`: the new state, an error, or a panic. -/
inductive BRes where
  | ok (s : State)
  | err (e : BErr)
  | crash
  deriving DecidableEq

/-- Outcome of executing a block's transactions in order. -/
inductive TxsRes where
  | ok (s : State)
  | err (tx : Tx) (e : TxErr)
  | crash
  deriving DecidableEq

/-- The "Commit each tx" loop of `AppendBlock` (state.go): execute transactions
strictly in array order, aborting at the first error (wrapped as
`InvalidTxError{tx, reason}`). -/
def execTxs : State → List Tx → TxsRes
  | s, [] => .ok s
  | s, tx :: rest =>
    match execTx s tx with
    | .ok s' => execTxs s' rest
    | .err e _ => .err tx e
    | .crash => .crash

/-- The "Update Validator.LastCommitHeight" loop of `AppendBlock` (state.go):
for every non-zero commit at index `i`, fetch the validator at index `i` of the
*current* bonded set, stamp `LastCommitHeight = block.Height - 1` and update it;
a missing index or failed update is a panic (`none`). -/
def updateLCHAux (h : Nat) : State → List Commit → Nat → Option State
  | s, [], _ => some s
  | s, c :: rest, i =>
    if c.isZero then updateLCHAux h s rest (i + 1)
    else
      match s.bonded[i]? with
      | none => none
      | some val =>
        match vsUpdate s.bonded { val with lastCommitHeight := h - 1 } with
        | none => none
        | some bonded' => updateLCHAux h { s with bonded := bonded' } rest (i + 1)

/-- Release each collected validator in turn (panics propagate as `none`). -/
def releaseList : State → List Validator → Option State
  | s, [] => some s
  | s, v :: rest =>
    match releaseValidator s v with
    | none => none
    | some s' => releaseList s' rest

/-- The unbonding-release pass of `AppendBlock` (state.go): collect the
unbonding validators with `UnbondHeight + unbondingPeriodBlocks < block.Height`
(uint arithmetic), then release them. -/
def releasePass (s : State) (h : Nat) : Option State :=
  releaseList s
    (s.unbonding.filter (fun v => decide (w64 (v.unbondHeight + unbondingPeriodBlocks) < h)))

/-- Unbond each collected validator in turn (panics propagate as `none`). -/
def timeoutList : State → List Validator → Option State
  | s, [] => some s
  | s, v :: rest =>
    match unbondValidator s v with
    | none => none
    | some s' => timeoutList s' rest

/-- The validator-timeout pass of `AppendBlock` (state.go): collect the bonded
validators with `LastCommitHeight + validatorTimeoutBlocks < block.Height`, then
move them to unbonding. -/
def timeoutPass (s : State) (h : Nat) : Option State :=
  timeoutList s
    (s.bonded.filter (fun v => decide (w64 (v.lastCommitHeight + validatorTimeoutBlocks) < h)))

/-- Modelled from the spec (§4.2): one `increment_accum` tick — find the
validator with maximal accum (first wins, i.e. ties break by ascending address
in a sorted set); returns its address. -/
def maxAccumAddr (l : List Validator) : Option Nat :=
  (l.foldl
    (fun best v =>
      match best with
      | none => some v
      | some w => if w.accum < v.accum then some v else some w)
    none).map Validator.address

/-- Modelled from the spec (§4.2): `increment_accum(1)` — every validator gains
`voting_power` accum, then the maximal-accum validator loses the set's total
voting power. -/
def incrementAccumOnce (vals : List Validator) : List Validator :=
  let total : Int := (vsTotalPower vals : Nat)
  let bumped := vals.map (fun v => { v with accum := v.accum + (v.votingPower : Int) })
  match maxAccumAddr bumped with
  | none => bumped
  | some a =>
    bumped.map (fun v => if v.address = a then { v with accum := v.accum - total } else v)

/-- The final block-tail commit of `AppendBlock` (state.go step 9). -/
def finalizeTail (s : State) (b : Block) (partsHeader : Nat) : State :=
  { s with lastBlockHeight := b.height, lastBlockHash := blockHashOf b,
           lastBlockParts := partsHeader, lastBlockTime := b.time }

/-- Steps 3–9 of `AppendBlock` (state.go): transaction execution, the
LastCommitHeight update, the release and timeout passes, the accum tick, the
state-hash check-or-set, and the block-tail commit. -/
def appendBlockRest (s : State) (b : Block) (partsHeader : Nat) (checkStateHash : Bool) : BRes :=
  match execTxs s b.txs with
  | .crash => .crash
  | .err tx e => .err (.invalidTx tx e)
  | .ok s3 =>
    match updateLCHAux b.height s3 b.commits 0 with
    | none => .crash
    | some s4 =>
      match releasePass s4 b.height with
      | none => .crash
      | some s5 =>
        match timeoutPass s5 b.height with
        | none => .crash
        | some s6 =>
          let s7 := { s6 with bonded := incrementAccumOnce s6.bonded }
          if checkStateHash then
            if b.stateHash ≠ some s7.hashOf then .err (.msg "Invalid state hash")
            else .ok (finalizeTail s7 b partsHeader)
          else
            if b.stateHash ≠ none then .crash
            else .ok (finalizeTail s7 b partsHeader)

/-- `AppendBlock` from state.go: basic validation, the height-1 special case,
the commit-size check, commit aggregation with the 2/3 voting-power gate
(`sumVotingPower <= TotalVotingPower()*2/3` in uint64 arithmetic), then
steps 3–9. -/
def appendBlock (s : State) (b : Block) (partsHeader : Nat) (checkStateHash : Bool) : BRes :=
  if ¬ b.validateBasic s.lastBlockHeight s.lastBlockHash s.lastBlockParts s.lastBlockTime then
    .err .basic
  else if b.height = 1 then
    if b.commits ≠ [] then
      .err (.msg "Block at height 1 (first block) should have no Validation commits")
    else appendBlockRest s b partsHeader checkStateHash
  else
    if b.commits.length ≠ s.bonded.length then .err (.msg "Invalid block validation size")
    else
      match sumCommits s b with
      | .err => .err (.msg "Invalid validation signature")
      | .ok sum =>
        if sum ≤ w64 (vsTotalPower s.bonded * 2) / 3 then
          .err (.msg "Insufficient validation voting power")
        else appendBlockRest s b partsHeader checkStateHash

/-- Modelled from the spec (§4.6, §6): the deterministic binary codec of the
persisted state value is typed token-per-field; the tree "root hashes" are the
injective commitments to the tree contents. -/
inductive Token where
  | uv (n : Nat)
  | byteSlice (n : Nat)
  | parts (n : Nat)
  | time (n : Nat)
  | vset (vals : List Validator)
  | accTree (t : List (Nat × Account))
  | infoTree (t : List (Nat × ValidatorInfo))
  deriving DecidableEq

/-- Modelled from the spec (§4.6): the key-value store, holding the single
`"stateKey"` entry the state core uses. -/
structure DBm where
  stateEntry : Option (List Token)
  deriving DecidableEq

/-- `State.Save()` from state.go: write the canonical encoding of
`{last_block_height, last_block_hash, last_block_parts, last_block_time,
bonded, unbonding, accounts_root_hash, validator_infos_root_hash}` under
`"stateKey"` (field order fixed). -/
def saveTokens (s : State) : List Token :=
  [.uv s.lastBlockHeight, .byteSlice s.lastBlockHash, .parts s.lastBlockParts,
   .time s.lastBlockTime, .vset s.bonded, .vset s.unbonding,
   .accTree s.accounts, .infoTree s.validatorInfos]

/-- `db.Set(stateKey, buf.Bytes())` of `State.Save()`. -/
def State.save (s : State) (db : DBm) : DBm :=
  { db with stateEntry := some (saveTokens s) }

/-- Modelled from the spec (§6): `ReadUvarint`. -/
def readUv : List Token → Option (Nat × List Token)
  | .uv n :: rest => some (n, rest)
  | _ => none

/-- Modelled from the spec (§6): `ReadByteSlice`. -/
def readByteSlice : List Token → Option (Nat × List Token)
  | .byteSlice n :: rest => some (n, rest)
  | _ => none

/-- Modelled from the spec (§6): reading the encoded `PartSetHeader`. -/
def readParts : List Token → Option (Nat × List Token)
  | .parts n :: rest => some (n, rest)
  | _ => none

/-- Modelled from the spec (§6): `ReadTime`. -/
def readTime : List Token → Option (Nat × List Token)
  | .time n :: rest => some (n, rest)
  | _ => none

/-- Modelled from the spec (§6): reading an encoded validator set. -/
def readVset : List Token → Option (List Validator × List Token)
  | .vset vals :: rest => some (vals, rest)
  | _ => none

/-- Modelled from the spec (§4.1, §4.6): `merkle.Tree.Load(rootHash)` for the
accounts tree — the root hash is an injective commitment, so loading rehydrates
the committed contents. -/
def readAccTree : List Token → Option (List (Nat × Account) × List Token)
  | .accTree t :: rest => some (t, rest)
  | _ => none

/-- Modelled from the spec (§4.1, §4.6): `merkle.Tree.Load(rootHash)` for the
validator-infos tree. -/
def readInfoTree : List Token → Option (List (Nat × ValidatorInfo) × List Token)
  | .infoTree t :: rest => some (t, rest)
  | _ => none

/-- `LoadState` from state.go: a missing `"stateKey"` entry yields `none`
(Go returns nil); otherwise read the fields back in the fixed order. -/
def loadState (db : DBm) : Option State := do
  let buf ← db.stateEntry
  let (h, buf) ← readUv buf
  let (bh, buf) ← readByteSlice buf
  let (bp, buf) ← readParts buf
  let (bt, buf) ← readTime buf
  let (bv, buf) ← readVset buf
  let (ub, buf) ← readVset buf
  let (act, buf) ← readAccTree buf
  let (inf, _) ← readInfoTree buf
  pure ⟨h, bh, bp, bt, bv, ub, act, inf⟩

/-! ## General lemmas about the embedded primitives -/

theorem w64_eq_of_lt {n : Nat} (h : n < 2 ^ 64) : w64 n = n :=
  Nat.mod_eq_of_lt h

theorem w64_lt (n : Nat) : w64 n < 2 ^ 64 :=
  Nat.mod_lt _ (by norm_num)

theorem treeGet_set_self {α : Type} (t : List (Nat × α)) (k : Nat) (v : α) :
    treeGet (treeSet t k v) k = some v := by
  induction t with
  | nil => simp [treeSet, treeGet]
  | cons kv rest ih =>
    by_cases h : kv.1 = k
    · simp [treeSet, h, treeGet]
    · simp only [treeSet]
      rw [show (kv.1, kv.2) = kv from rfl]
      simp [h, treeGet, ih]

theorem treeGet_set_ne {α : Type} (t : List (Nat × α)) (k k' : Nat) (v : α) (h : k' ≠ k) :
    treeGet (treeSet t k v) k' = treeGet t k' := by
  have hkk : ¬ k = k' := fun hh => h hh.symm
  induction t with
  | nil => simp [treeSet, treeGet, hkk]
  | cons kv rest ih =>
    by_cases hk : kv.1 = k
    · simp only [treeSet, hk, if_pos rfl]
      simp [treeGet, hkk, hk]
    · simp only [treeSet, if_neg hk]
      by_cases hk' : kv.1 = k'
      · simp [treeGet, hk']
      · simp [treeGet, hk', ih]

theorem treeGet_append {α : Type} (t₁ t₂ : List (Nat × α)) (k : Nat) :
    treeGet (t₁ ++ t₂) k =
      match treeGet t₁ k with
      | some v => some v
      | none => treeGet t₂ k := by
  induction t₁ with
  | nil => simp [treeGet]
  | cons kv rest ih =>
    by_cases h : kv.1 = k
    · simp [treeGet, h]
    · simp [treeGet, h, ih]

theorem treeGet_eq_none_iff {α : Type} (t : List (Nat × α)) (k : Nat) :
    treeGet t k = none ↔ k ∉ t.map Prod.fst := by
  induction t with
  | nil => simp [treeGet]
  | cons kv rest ih =>
    by_cases h : kv.1 = k
    · simp [treeGet, h]
    · have h' : ¬ k = kv.1 := fun hh => h hh.symm
      simp [treeGet, h, ih, h']

theorem treeGet_isSome_iff {α : Type} (t : List (Nat × α)) (k : Nat) :
    (treeGet t k).isSome = true ↔ k ∈ t.map Prod.fst := by
  constructor
  · intro hs
    by_contra hk
    simp [(treeGet_eq_none_iff t k).mpr hk] at hs
  · intro hk
    cases h : treeGet t k with
    | none => exact absurd ((treeGet_eq_none_iff t k).mp h) (not_not_intro hk)
    | some v => rfl

/-! ## C9: DupeoutTx against a non-bonded address crashes instead of erroring -/

/-- C9: For every state whose bonded set does not contain the address named by a
DupeoutTx, `ExecTx` does not return a rejection error: the accused lookup is
dereferenced without a nil check, so execution is a nil-pointer panic
(`crash`), never an error return. -/
theorem dupeout_unknown_address_crashes
    (s : State) (addr : Nat) (vA vB : Vote)
    (h : vsGet s.bonded addr = none) :
    execTx s (.dupeout addr vA vB) = .crash := by
  simp [execTx, h]

/-- Witness for C9 at a concrete input: an empty bonded set. -/
theorem dupeout_unknown_address_crashes_witness :
    execTx
      { lastBlockHeight := 0, lastBlockHash := 0, lastBlockParts := 0, lastBlockTime := 0,
        bonded := [], unbonding := [], accounts := [], validatorInfos := [] }
      (.dupeout 4 ⟨1, 0, .commit, 9, 9, none⟩ ⟨1, 0, .commit, 8, 8, none⟩) = .crash :=
  dupeout_unknown_address_crashes _ 4 _ _ (by decide)

/-! ## C6: Save / LoadState round-trip -/

/-- C6: Loading after saving round-trips: `LoadState` after `State.Save()` on
the same store yields a state equal to the original on every observable field
(block tail, bonded, unbonding, accounts contents, validator-infos contents) —
hence also with the same `Hash()`. -/
theorem loadState_save_roundtrip (s : State) (db : DBm) :
    loadState (s.save db) = some s ∧
    ∀ s', loadState (s.save db) = some s' → s'.hashOf = s.hashOf := by
  refine ⟨rfl, ?_⟩
  intro s' h
  cases h
  rfl

/-! ## C3: a rejected transaction leaves the state untouched -/

/-- C3: For every state and every transaction of any of the five kinds, if
`ExecTx` returns an error then the state is unchanged: every error return in
the source happens before any mutation of the accounts tree, the validator
sets, or the validator-infos tree (only the transaction object itself is
canonicalized). -/
theorem execTx_error_leaves_state_unchanged
    (s s' : State) (tx : Tx) (e : TxErr)
    (h : execTx s tx = .err e s') :
    s' = s := by
  cases tx <;> simp only [execTx] at h <;> (repeat' split at h) <;> simp_all

/-- Witness for C3 at a concrete input: a SendTx from a missing account is
rejected with `ErrTxInvalidAddress` and the state it reports is the original
one. -/
theorem execTx_error_leaves_state_unchanged_witness :
    execTx
      { lastBlockHeight := 0, lastBlockHash := 0, lastBlockParts := 0, lastBlockTime := 0,
        bonded := [], unbonding := [], accounts := [], validatorInfos := [] }
      (.send [{ address := 7, amount := 1, sequence := 1, signature := none, pubKey := .nil }] [])
      = .err .invalidAddress
          { lastBlockHeight := 0, lastBlockHash := 0, lastBlockParts := 0, lastBlockTime := 0,
            bonded := [], unbonding := [], accounts := [], validatorInfos := [] } ∧
    ({ lastBlockHeight := 0, lastBlockHash := 0, lastBlockParts := 0, lastBlockTime := 0,
       bonded := [], unbonding := [], accounts := [], validatorInfos := [] } : State)
      = { lastBlockHeight := 0, lastBlockHash := 0, lastBlockParts := 0, lastBlockTime := 0,
          bonded := [], unbonding := [], accounts := [], validatorInfos := [] } :=
  ⟨by decide,
   execTx_error_leaves_state_unchanged
     { lastBlockHeight := 0, lastBlockHash := 0, lastBlockParts := 0, lastBlockTime := 0,
       bonded := [], unbonding := [], accounts := [], validatorInfos := [] }
     { lastBlockHeight := 0, lastBlockHash := 0, lastBlockParts := 0, lastBlockTime := 0,
       bonded := [], unbonding := [], accounts := [], validatorInfos := [] }
     (.send [{ address := 7, amount := 1, sequence := 1, signature := none, pubKey := .nil }] [])
     .invalidAddress (by decide)⟩

/-! ## Validator-set lemmas -/

theorem vsGetAux_some_addr {l : List Validator} {addr i j : Nat} {v : Validator}
    (h : vsGetAux l addr i = some (j, v)) : v.address = addr := by
  induction l generalizing i with
  | nil => simp [vsGetAux] at h
  | cons w rest ih =>
    by_cases hw : w.address = addr
    · simp [vsGetAux, hw] at h
      cases h.2
      exact hw
    · simp [vsGetAux, hw] at h
      exact ih h

theorem vsGetAux_some_mem {l : List Validator} {addr i j : Nat} {v : Validator}
    (h : vsGetAux l addr i = some (j, v)) : v ∈ l := by
  induction l generalizing i with
  | nil => simp [vsGetAux] at h
  | cons w rest ih =>
    by_cases hw : w.address = addr
    · simp [vsGetAux, hw] at h
      simp [h.2.symm]
    · simp [vsGetAux, hw] at h
      exact List.mem_cons_of_mem _ (ih h)

theorem vsGetAux_eq_none_iff (l : List Validator) (addr i : Nat) :
    vsGetAux l addr i = none ↔ ∀ v ∈ l, v.address ≠ addr := by
  induction l generalizing i with
  | nil => simp [vsGetAux]
  | cons w rest ih =>
    by_cases hw : w.address = addr
    · simp [vsGetAux, hw]
    · simp [vsGetAux, hw, ih]

theorem vsGet_eq_none_iff (l : List Validator) (addr : Nat) :
    vsGet l addr = none ↔ ∀ v ∈ l, v.address ≠ addr :=
  vsGetAux_eq_none_iff l addr 0

theorem vsRemove_of_getAux {l : List Validator} {addr i j : Nat} {v : Validator}
    (h : vsGetAux l addr i = some (j, v)) :
    ∃ l', vsRemove l addr = some (v, l') := by
  induction l generalizing i with
  | nil => simp [vsGetAux] at h
  | cons w rest ih =>
    by_cases hw : w.address = addr
    · simp [vsGetAux, hw] at h
      obtain ⟨h1, h2⟩ := h
      subst h2
      exact ⟨rest, by simp [vsRemove, hw]⟩
    · simp only [vsGetAux, if_neg hw] at h
      obtain ⟨l', hl'⟩ := ih h
      exact ⟨w :: l', by simp [vsRemove, hw, hl']⟩

theorem vsRemove_mem {l l' : List Validator} {addr : Nat} {w u : Validator}
    (h : vsRemove l addr = some (w, l')) (hu : u ∈ l') : u ∈ l := by
  induction l generalizing l' with
  | nil => simp [vsRemove] at h
  | cons x rest ih =>
    by_cases hx : x.address = addr
    · rw [vsRemove, if_pos hx] at h
      injection h with h
      injection h with h1 h2
      subst h2
      exact List.mem_cons_of_mem _ hu
    · rw [vsRemove, if_neg hx] at h
      obtain ⟨p, hp, hpe⟩ := Option.map_eq_some'.mp h
      injection hpe with hp1 hp2
      subst hp2
      rcases List.mem_cons.mp hu with h3 | h4
      · exact h3 ▸ List.mem_cons_self x rest
      · exact List.mem_cons_of_mem _ (ih (by rw [hp, ← hp1]) h4)

theorem vsRemove_not_mem {l l' : List Validator} {addr : Nat} {w : Validator}
    (hnd : (l.map Validator.address).Nodup)
    (h : vsRemove l addr = some (w, l')) :
    ∀ u ∈ l', u.address ≠ addr := by
  induction l generalizing l' with
  | nil => simp [vsRemove] at h
  | cons x rest ih =>
    simp only [List.map_cons, List.nodup_cons] at hnd
    by_cases hx : x.address = addr
    · rw [vsRemove, if_pos hx] at h
      injection h with h
      injection h with h1 h2
      subst h2
      intro u hu hua
      exact hnd.1 (by rw [hx, ← hua]; exact List.mem_map_of_mem _ hu)
    · rw [vsRemove, if_neg hx] at h
      obtain ⟨p, hp, hpe⟩ := Option.map_eq_some'.mp h
      injection hpe with hp1 hp2
      subst hp2
      intro u hu hua
      rcases List.mem_cons.mp hu with h3 | h4
      · exact hx (h3 ▸ hua)
      · exact ih hnd.2 (by rw [hp, ← hp1]) u h4 hua

/-! ## C4: the DupeoutTx commit special case destroys the validator -/

/-- C4: For a DupeoutTx whose accused address is bonded, whose two vote
signatures verify under the accused's key, whose votes have equal heights, and
with `vote_a.type == Commit ∧ vote_a.round < vote_b.round`, `ExecTx` accepts
without checking round equality, type equality or block-hash inequality, and
destroys the validator: the info record gets
`destroyed_height = last_block_height + 1` and
`destroyed_amount = voting_power`, and the validator leaves the bonded set. -/
theorem dupeout_commit_special_case_destroys
    (s : State) (addr : Nat) (vA vB : Vote) (i : Nat) (accused : Validator) (vi : ValidatorInfo)
    (hnd : (s.bonded.map Validator.address).Nodup)
    (hget : vsGet s.bonded addr = some (i, accused))
    (hsigA : accused.pubKey.verifyBytes vA.signBytes vA.signature = true)
    (hsigB : accused.pubKey.verifyBytes vB.signBytes vB.signature = true)
    (hh : vA.height = vB.height)
    (hty : vA.ty = VoteType.commit)
    (hr : vA.round < vB.round)
    (hvi : s.getValidatorInfo addr = some vi)
    (hviaddr : vi.address = addr) :
    ∃ s', execTx s (.dupeout addr vA vB) = .ok s' ∧
      s'.getValidatorInfo addr =
        some { vi with destroyedHeight := w64 (s.lastBlockHeight + 1),
                       destroyedAmount := accused.votingPower } ∧
      vsGet s'.bonded addr = none ∧
      s'.unbonding = s.unbonding ∧
      s'.accounts = s.accounts := by
  have haddr : accused.address = addr := vsGetAux_some_addr hget
  obtain ⟨l', hrem⟩ := vsRemove_of_getAux hget
  have hdestroy : destroyValidator s accused = some { s with validatorInfos := treeSet s.validatorInfos vi.address { vi with destroyedHeight := w64 (s.lastBlockHeight + 1), destroyedAmount := accused.votingPower }, bonded := l' } := by
    simp [destroyValidator, haddr, hvi, State.setValidatorInfo, hrem]
  refine ⟨{ s with validatorInfos := treeSet s.validatorInfos vi.address { vi with destroyedHeight := w64 (s.lastBlockHeight + 1), destroyedAmount := accused.votingPower }, bonded := l' }, ?_, ?_, ?_, ?_, ?_⟩
  · simp [execTx, hget, hsigA, hsigB, hh, hty, hr, hdestroy]
  · simp only [State.getValidatorInfo]
    rw [hviaddr]
    exact treeGet_set_self _ _ _
  · exact (vsGet_eq_none_iff _ _).mpr (vsRemove_not_mem hnd hrem)
  · rfl
  · rfl

/-- Witness for C4 at a concrete input: a bonded validator double-signing
commits at rounds 0 and 1 of height 3 with equal block hashes. -/
theorem dupeout_commit_special_case_destroys_witness :
    ∃ s', execTx
      { lastBlockHeight := 9, lastBlockHash := 1, lastBlockParts := 1, lastBlockTime := 0,
        bonded := [{ address := 5, pubKey := .ed 5, bondHeight := 1, unbondHeight := 0,
                     lastCommitHeight := 8, votingPower := 60, accum := 0 }],
        unbonding := [],
        accounts := [],
        validatorInfos := [(5, { address := 5, pubKey := .ed 5, unbondTo := [],
                                 firstBondHeight := 1, firstBondAmount := 60,
                                 releasedHeight := 0, destroyedHeight := 0,
                                 destroyedAmount := 0 })] }
      (.dupeout 5 ⟨3, 0, .commit, 70, 0, some (5, .vote 3 0 .commit 70 0)⟩
                  ⟨3, 1, .commit, 70, 0, some (5, .vote 3 1 .commit 70 0)⟩) = .ok s' ∧
      s'.getValidatorInfo 5 =
        some { address := 5, pubKey := .ed 5, unbondTo := [],
               firstBondHeight := 1, firstBondAmount := 60,
               releasedHeight := 0, destroyedHeight := w64 (9 + 1), destroyedAmount := 60 } ∧
      vsGet s'.bonded 5 = none ∧
      s'.unbonding = [] ∧
      s'.accounts = [] :=
  dupeout_commit_special_case_destroys _ 5 _ _ 0
    { address := 5, pubKey := .ed 5, bondHeight := 1, unbondHeight := 0,
      lastCommitHeight := 8, votingPower := 60, accum := 0 }
    { address := 5, pubKey := .ed 5, unbondTo := [], firstBondHeight := 1,
      firstBondAmount := 60, releasedHeight := 0, destroyedHeight := 0, destroyedAmount := 0 }
    (by decide) (by decide) (by decide) (by decide) (by decide) (by decide) (by decide)
    (by decide) (by decide)


/-! ## C1: the commit voting-power gate equals the rational strict-2/3 rule -/

theorem foldl_w64_eq (l : List Nat) (a : Nat) (h : a + l.sum < 2 ^ 64) :
    l.foldl (fun t x => w64 (t + x)) a = a + l.sum := by
  induction l generalizing a with
  | nil => simp
  | cons x rest ih =>
    have hx : a + x < 2 ^ 64 := by simp [List.sum_cons] at h; omega
    have hrest : (a + x) + rest.sum < 2 ^ 64 := by simp [List.sum_cons] at h; omega
    simp only [List.foldl_cons, w64_eq_of_lt hx, ih _ hrest, List.sum_cons]
    omega

theorem vsTotalPower_eq_exact (vals : List Validator)
    (h : exactTotalPower vals < 2 ^ 64) :
    vsTotalPower vals = exactTotalPower vals := by
  have : vsTotalPower vals =
      (vals.map Validator.votingPower).foldl (fun t x => w64 (t + x)) 0 := by
    rw [List.foldl_map]
    rfl
  rw [this, foldl_w64_eq _ 0 (by simpa [exactTotalPower] using h)]
  simp [exactTotalPower]

theorem sumCommitsAux_bounds (b : Block) (vs : List Validator) (cs : List Commit)
    (a sum : Nat) (hov : a + exactTotalPower vs < 2 ^ 64)
    (h : sumCommitsAux b vs cs a = .ok sum) :
    a ≤ sum ∧ sum ≤ a + exactTotalPower vs := by
  induction vs generalizing cs a with
  | nil =>
    cases cs with
    | nil => simp [sumCommitsAux] at h; omega
    | cons c crest => simp [sumCommitsAux] at h; omega
  | cons v vrest ih =>
    cases cs with
    | nil => simp [sumCommitsAux] at h; omega
    | cons c crest =>
      by_cases hz : c.isZero
      · have hrec := ih crest a
          (by simp [exactTotalPower, List.sum_cons] at hov ⊢; omega)
          (by simpa [sumCommitsAux, hz] using h)
        simp [exactTotalPower, List.sum_cons] at hrec ⊢
        omega
      · by_cases hv : v.pubKey.verifyBytes
            (.vote (b.height - 1) c.round VoteType.commit b.lastBlockHash b.lastBlockParts)
            c.signature
        · have hx : a + v.votingPower < 2 ^ 64 := by
            simp [exactTotalPower, List.sum_cons] at hov; omega
          have hrec := ih crest (w64 (a + v.votingPower))
            (by rw [w64_eq_of_lt hx]; simp [exactTotalPower, List.sum_cons] at hov ⊢; omega)
            (by simpa [sumCommitsAux, hz, hv] using h)
          rw [w64_eq_of_lt hx] at hrec
          simp [exactTotalPower, List.sum_cons] at hrec ⊢
          omega
        · simp [sumCommitsAux, hz, hv] at h

/-- C1: In `AppendBlock` of a block at height > 1, once commit aggregation has
produced the accumulated voting power `sum` of the validators with valid
non-zero commits, the block passes the gate exactly when
`sum > (2/3) * total_voting_power` in the exact rational sense
(`3 * sum > 2 * total`); otherwise `AppendBlock` returns the error
"Insufficient validation voting power".  The source's integer expression
`TotalVotingPower()*2/3` agrees with the rational strict threshold whenever
the doubled total voting power does not overflow uint64. -/
theorem appendBlock_voting_power_threshold
    (s : State) (b : Block) (partsHeader : Nat) (checkStateHash : Bool) (sum : Nat)
    (hov : 2 * exactTotalPower s.bonded < 2 ^ 64)
    (hbasic : b.validateBasic s.lastBlockHeight s.lastBlockHash s.lastBlockParts
      s.lastBlockTime = true)
    (hh1 : b.height ≠ 1)
    (hlen : b.commits.length = s.bonded.length)
    (hsum : sumCommits s b = .ok sum) :
    (3 * sum ≤ 2 * exactTotalPower s.bonded →
      appendBlock s b partsHeader checkStateHash =
        .err (.msg "Insufficient validation voting power")) ∧
    (2 * exactTotalPower s.bonded < 3 * sum →
      appendBlock s b partsHeader checkStateHash =
        appendBlockRest s b partsHeader checkStateHash) := by
  have hT : exactTotalPower s.bonded < 2 ^ 64 := by omega
  have hgate : w64 (vsTotalPower s.bonded * 2) / 3 < sum ↔
      2 * exactTotalPower s.bonded < 3 * sum := by
    rw [vsTotalPower_eq_exact _ hT,
        w64_eq_of_lt (by omega : exactTotalPower s.bonded * 2 < 2 ^ 64),
        Nat.div_lt_iff_lt_mul (by norm_num : (0 : Nat) < 3)]
    omega
  constructor
  · intro hle
    have hcond : sum ≤ w64 (vsTotalPower s.bonded * 2) / 3 := by
      by_contra hc
      exact absurd (hgate.mp (lt_of_not_ge hc)) (by omega)
    simp [appendBlock, hbasic, hh1, hlen, hsum, hcond]
  · intro hlt
    have hcond : ¬ (sum ≤ w64 (vsTotalPower s.bonded * 2) / 3) :=
      not_le_of_gt (hgate.mpr hlt)
    simp [appendBlock, hbasic, hh1, hlen, hsum, hcond]

/-- The concrete state of the C1 witness: two bonded validators of powers 60
and 40. -/
def c1sw : State :=
  { lastBlockHeight := 1, lastBlockHash := 7, lastBlockParts := 8, lastBlockTime := 0,
    bonded := [{ address := 1, pubKey := .ed 1, bondHeight := 1, unbondHeight := 0,
                 lastCommitHeight := 0, votingPower := 60, accum := 0 },
               { address := 2, pubKey := .ed 2, bondHeight := 1, unbondHeight := 0,
                 lastCommitHeight := 0, votingPower := 40, accum := 0 }],
    unbonding := [], accounts := [], validatorInfos := [] }

/-- The concrete block of the C1 witness: both validators commit. -/
def c1bw : Block :=
  { height := 2, time := 5, lastBlockHash := 7, lastBlockParts := 8, stateHash := none,
    commits := [{ round := 0, signature := some (1, .vote 1 0 .commit 7 8) },
                { round := 0, signature := some (2, .vote 1 0 .commit 7 8) }],
    txs := [] }

/-- Witness for C1 at a concrete input: powers 60 + 40 both committing;
3·100 > 2·100, so the gate passes and `AppendBlock` proceeds past it. -/
theorem appendBlock_voting_power_threshold_witness :
    (3 * 100 ≤ 2 * exactTotalPower c1sw.bonded →
      appendBlock c1sw c1bw 8 false =
        .err (.msg "Insufficient validation voting power")) ∧
    (2 * exactTotalPower c1sw.bonded < 3 * 100 →
      appendBlock c1sw c1bw 8 false = appendBlockRest c1sw c1bw 8 false) :=
  appendBlock_voting_power_threshold c1sw c1bw 8 false 100
    (by decide) (by decide) (by decide) (by decide) (by decide)

/-! ## C5: voting-power positivity is not an invariant -/

/-- The uint64 total of a list of outputs, as `ValidateOutputs` accumulates
it. -/
def outTotalW (outs : List TxOutput) : Nat :=
  outs.foldl (fun t o => w64 (t + o.amount)) 0

theorem validateOutputsAux_eq (outs : List TxOutput) (a : Nat) :
    validateOutputsAux outs a = .ok (outs.foldl (fun t o => w64 (t + o.amount)) a) := by
  induction outs generalizing a with
  | nil => rfl
  | cons o rest ih => simp [validateOutputsAux, TxOutput.validateBasic, ih]

theorem validateOutputs_eq (outs : List TxOutput) :
    validateOutputs outs = .ok (outTotalW outs) :=
  validateOutputsAux_eq outs 0

theorem vsAdd_lookup {l l' : List Validator} {v : Validator}
    (h : vsAdd l v = some l') :
    ∀ k, ∃ i, vsGetAux l' v.address k = some (i, v) := by
  induction l generalizing l' with
  | nil =>
    rw [vsAdd] at h
    injection h with h
    subst h
    intro k
    exact ⟨k, by simp [vsGetAux]⟩
  | cons w rest ih =>
    rw [vsAdd] at h
    by_cases hlt : v.address < w.address
    · rw [if_pos hlt] at h
      injection h with h
      subst h
      intro k
      exact ⟨k, by simp [vsGetAux]⟩
    · rw [if_neg hlt] at h
      by_cases heq : v.address = w.address
      · rw [if_pos heq] at h
        cases h
      · rw [if_neg heq] at h
        obtain ⟨l'', hl'', hle⟩ := Option.map_eq_some'.mp h
        subst hle
        intro k
        obtain ⟨i, hi⟩ := ih hl'' (k + 1)
        exact ⟨i, by rw [vsGetAux, if_neg (fun hh => heq hh.symm), hi]⟩

/-- Counterexample to C5 as stated: a BondTx with an empty `unbond_to` list is
accepted and inserts a bonded validator whose voting power is 0. -/
theorem bondTx_zero_voting_power_counterexample :
    ∃ v, execTx
      { lastBlockHeight := 0, lastBlockHash := 0, lastBlockParts := 0, lastBlockTime := 0,
        bonded := [], unbonding := [],
        accounts := [(7, { address := 7, pubKey := .ed 7, sequence := 0, balance := 100 })],
        validatorInfos := [] }
      (.bond [{ address := 7, amount := 5, sequence := 1,
                signature := some (7, bondSignBytes
                  [{ address := 7, amount := 5, sequence := 1, signature := none, pubKey := .nil }]
                  [] (.ed 3)),
                pubKey := .nil }] [] (.ed 3)) =
      .ok { lastBlockHeight := 0, lastBlockHash := 0, lastBlockParts := 0, lastBlockTime := 0,
            bonded := [v], unbonding := [],
            accounts := [(7, { address := 7, pubKey := .ed 7, sequence := 1, balance := 95 })],
            validatorInfos := [(3, { address := 3, pubKey := .ed 3, unbondTo := [],
                                     firstBondHeight := 1, firstBondAmount := 0,
                                     releasedHeight := 0, destroyedHeight := 0,
                                     destroyedAmount := 0 })] } ∧
    v.votingPower = 0 :=
  ⟨{ address := 3, pubKey := .ed 3, bondHeight := 1, unbondHeight := 0,
     lastCommitHeight := 0, votingPower := 0, accum := 0 }, by decide, rfl⟩

/-- C5 amended: a validator inserted by BondTx carries
`voting_power = out_total`, the uint64 sum of the `unbond_to` amounts — which
is zero when `unbond_to` is empty (or its amounts are); strict positivity is
not enforced anywhere (`MIN_BOND_AMOUNT` is declared and unused). -/
theorem bondTx_voting_power_eq_outTotal
    (s : State) (ins : List TxInput) (unbondTo : List TxOutput) (pk : PubKey) (s' : State)
    (h : execTx s (.bond ins unbondTo pk) = .ok s') :
    ∃ i, vsGet s'.bonded pk.address =
      some (i, { address := pk.address, pubKey := pk,
                 bondHeight := w64 (s.lastBlockHeight + 1), unbondHeight := 0,
                 lastCommitHeight := 0, votingPower := outTotalW unbondTo, accum := 0 }) := by
  simp only [execTx] at h
  cases hvi0 : s.getValidatorInfo pk.address with
  | some vi0 => simp [hvi0] at h
  | none =>
  simp only [hvi0] at h
  cases hgoma : getOrMakeAccounts s ins [] with
  | error e => simp [hgoma] at h
  | ok p =>
  obtain ⟨accs, insC⟩ := p
  simp only [hgoma] at h
  cases hval : validateInputsAux accs (bondSignBytes insC unbondTo pk) insC 0 with
  | crash => simp [hval] at h
  | err e => simp [hval] at h
  | ok inTotal =>
  simp only [hval] at h
  cases hpkv : pk.validateBasic with
  | error e => simp [hpkv] at h
  | ok u =>
  simp only [hpkv, validateOutputs_eq] at h
  by_cases hfund : inTotal < outTotalW unbondTo
  · simp [hfund] at h
  · simp only [if_neg hfund] at h
    split at h
    · exact absurd h (by simp)
    next accs1 hadj =>
      split at h
      · exact absurd h (by simp)
      next bonded' hadd =>
        injection h with h
        subst h
        obtain ⟨i, hi⟩ := vsAdd_lookup hadd 0
        exact ⟨i, by simpa [vsGet] using hi⟩

/-- Witness for the amended C5 at the counterexample's concrete input. -/
theorem bondTx_voting_power_eq_outTotal_witness :
    ∃ i, vsGet
      ({ lastBlockHeight := 0, lastBlockHash := 0, lastBlockParts := 0, lastBlockTime := 0,
         bonded := [{ address := 3, pubKey := .ed 3, bondHeight := 1, unbondHeight := 0,
                      lastCommitHeight := 0, votingPower := 0, accum := 0 }],
         unbonding := [],
         accounts := [(7, { address := 7, pubKey := .ed 7, sequence := 1, balance := 95 })],
         validatorInfos := [(3, { address := 3, pubKey := .ed 3, unbondTo := [],
                                  firstBondHeight := 1, firstBondAmount := 0,
                                  releasedHeight := 0, destroyedHeight := 0,
                                  destroyedAmount := 0 })] } : State).bonded
      (PubKey.ed 3).address =
      some (i, { address := (PubKey.ed 3).address, pubKey := .ed 3,
                 bondHeight := w64 (0 + 1), unbondHeight := 0,
                 lastCommitHeight := 0, votingPower := outTotalW [], accum := 0 }) :=
  bondTx_voting_power_eq_outTotal
    { lastBlockHeight := 0, lastBlockHash := 0, lastBlockParts := 0, lastBlockTime := 0,
      bonded := [], unbonding := [],
      accounts := [(7, { address := 7, pubKey := .ed 7, sequence := 0, balance := 100 })],
      validatorInfos := [] }
    [{ address := 7, amount := 5, sequence := 1,
       signature := some (7, bondSignBytes
         [{ address := 7, amount := 5, sequence := 1, signature := none, pubKey := .nil }]
         [] (.ed 3)),
       pubKey := .nil }] [] (.ed 3)
    { lastBlockHeight := 0, lastBlockHash := 0, lastBlockParts := 0, lastBlockTime := 0,
      bonded := [{ address := 3, pubKey := .ed 3, bondHeight := 1, unbondHeight := 0,
                   lastCommitHeight := 0, votingPower := 0, accum := 0 }],
      unbonding := [],
      accounts := [(7, { address := 7, pubKey := .ed 7, sequence := 1, balance := 95 })],
      validatorInfos := [(3, { address := 3, pubKey := .ed 3, unbondTo := [],
                               firstBondHeight := 1, firstBondAmount := 0,
                               releasedHeight := 0, destroyedHeight := 0,
                               destroyedAmount := 0 })] }
    (by decide)

/-! ## C10: duplicate unbond_to addresses pass BondTx validation but panic at release -/

theorem treeGet_append_some {α : Type} {t l : List (Nat × α)} {k : Nat} {v : α}
    (h : treeGet t k = some v) : treeGet (t ++ l) k = some v := by
  rw [treeGet_append, h]

theorem treeGet_append_none {α : Type} {t l : List (Nat × α)} {k : Nat}
    (h : treeGet t k = none) : treeGet (t ++ l) k = treeGet l k := by
  rw [treeGet_append, h]

theorem getOrMakeOuts_dup (s : State) (outs : List TxOutput) :
    ∀ accs : List (Nat × Account),
    (¬ (outs.map TxOutput.address).Nodup ∨
      ∃ o ∈ outs, (treeGet accs o.address).isSome = true) →
    getOrMakeOuts s accs outs = .error .duplicateAddress := by
  induction outs with
  | nil =>
    intro accs h
    rcases h with h | ⟨o, ho, _⟩
    · simp at h
    · simp at ho
  | cons o rest ih =>
    intro accs h
    by_cases hdup : (treeGet accs o.address).isSome = true
    · rw [getOrMakeOuts, if_pos hdup]
    · rw [getOrMakeOuts, if_neg hdup]
      have hnone : treeGet accs o.address = none := by
        cases hx : treeGet accs o.address with
        | none => rfl
        | some a => rw [hx] at hdup; simp at hdup
      have hnext : ∀ a : Account,
          ¬ (rest.map TxOutput.address).Nodup ∨
            ∃ o' ∈ rest, (treeGet (accs ++ [(o.address, a)]) o'.address).isSome = true := by
        intro a
        rcases h with h | ⟨o', ho', hsome⟩
        · simp only [List.map_cons, List.nodup_cons] at h
          rw [not_and_or] at h
          rcases h with h | h
          · rw [not_not] at h
            obtain ⟨o', ho', hoaddr⟩ := List.mem_map.mp h
            refine Or.inr ⟨o', ho', ?_⟩
            rw [hoaddr, treeGet_append_none hnone]
            simp [treeGet]
          · exact Or.inl h
        · rcases List.mem_cons.mp ho' with h1 | h2
          · rw [h1] at hsome
            exact absurd hsome hdup
          · refine Or.inr ⟨o', h2, ?_⟩
            cases hx : treeGet accs o'.address with
            | none => rw [hx] at hsome; simp at hsome
            | some a' => rw [treeGet_append_some hx]; rfl
      cases hget : s.getAccount o.address with
      | some a => exact ih _ (hnext a)
      | none => exact ih _ (hnext _)

theorem execTx_bond_ok_info
    (s : State) (ins : List TxInput) (unbondTo : List TxOutput) (pk : PubKey) (s' : State)
    (h : execTx s (.bond ins unbondTo pk) = .ok s') :
    s'.getValidatorInfo pk.address =
      some { address := pk.address, pubKey := pk, unbondTo := unbondTo,
             firstBondHeight := w64 (s.lastBlockHeight + 1),
             firstBondAmount := outTotalW unbondTo,
             releasedHeight := 0, destroyedHeight := 0, destroyedAmount := 0 } := by
  simp only [execTx] at h
  cases hvi0 : s.getValidatorInfo pk.address with
  | some vi0 => simp [hvi0] at h
  | none =>
  simp only [hvi0] at h
  cases hgoma : getOrMakeAccounts s ins [] with
  | error e => simp [hgoma] at h
  | ok p =>
  obtain ⟨accs, insC⟩ := p
  simp only [hgoma] at h
  cases hval : validateInputsAux accs (bondSignBytes insC unbondTo pk) insC 0 with
  | crash => simp [hval] at h
  | err e => simp [hval] at h
  | ok inTotal =>
  simp only [hval] at h
  cases hpkv : pk.validateBasic with
  | error e => simp [hpkv] at h
  | ok u =>
  simp only [hpkv, validateOutputs_eq] at h
  by_cases hfund : inTotal < outTotalW unbondTo
  · simp [hfund] at h
  · simp only [if_neg hfund] at h
    split at h
    · exact absurd h (by simp)
    next accs1 hadj =>
      split at h
      · exact absurd h (by simp)
      next bonded' hadd =>
        injection h with h
        subst h
        simp only [State.getValidatorInfo, State.setValidatorInfo, State.updateAccounts]
        exact treeGet_set_self _ _ _

/-- C10: BondTx validation never rejects duplicate `unbond_to` addresses
(`GetOrMakeAccounts` sees the inputs only and `ValidateOutputs` checks outputs
in isolation), yet `releaseValidator` calls `GetOrMakeAccounts` on the stored
list and panics on the duplicate-address error — so a validator bonded with a
duplicated `unbond_to` address makes the unbonding-release pass of
`AppendBlock` panic instead of returning an error. -/
theorem bond_duplicate_unbondTo_release_panics
    (s : State) (ins : List TxInput) (unbondTo : List TxOutput) (pk : PubKey) (s' : State)
    (hdup : ¬ (unbondTo.map TxOutput.address).Nodup)
    (hexec : execTx s (.bond ins unbondTo pk) = .ok s')
    (v : Validator) (hv : v.address = pk.address) :
    releaseValidator s' v = none ∧
    (∀ (s2 : State) (v2 : Validator) (h : Nat) (vi2 : ValidatorInfo),
      s2.getValidatorInfo v2.address = some vi2 →
      ¬ (vi2.unbondTo.map TxOutput.address).Nodup →
      s2.unbonding = [v2] →
      w64 (v2.unbondHeight + unbondingPeriodBlocks) < h →
      releasePass s2 h = none) := by
  constructor
  · have hinfo := execTx_bond_ok_info s ins unbondTo pk s' hexec
    rw [releaseValidator, hv, hinfo]
    simp only [getOrMakeAccounts, getOrMakeIns,
      getOrMakeOuts_dup _ unbondTo [] (Or.inl hdup)]
  · intro s2 v2 h vi2 hvi2 hdup2 hunb hcond
    rw [releasePass, hunb]
    rw [List.filter_cons_of_pos (by simpa using hcond), List.filter_nil]
    rw [releaseList, releaseValidator, hvi2]
    simp only [getOrMakeAccounts, getOrMakeIns,
      getOrMakeOuts_dup _ vi2.unbondTo [] (Or.inl hdup2)]

/-- Witness for C10: a concrete bond with `unbond_to = [(9,5), (9,5)]` is
accepted, and releasing the resulting validator panics. -/
theorem bond_duplicate_unbondTo_release_panics_witness :
    releaseValidator
      { lastBlockHeight := 0, lastBlockHash := 0, lastBlockParts := 0, lastBlockTime := 0,
        bonded := [{ address := 3, pubKey := .ed 3, bondHeight := 1, unbondHeight := 0,
                     lastCommitHeight := 0, votingPower := 10, accum := 0 }],
        unbonding := [],
        accounts := [(7, { address := 7, pubKey := .ed 7, sequence := 1, balance := 90 })],
        validatorInfos := [(3, { address := 3, pubKey := .ed 3,
                                 unbondTo := [⟨9, 5⟩, ⟨9, 5⟩],
                                 firstBondHeight := 1, firstBondAmount := 10,
                                 releasedHeight := 0, destroyedHeight := 0,
                                 destroyedAmount := 0 })] }
      { address := 3, pubKey := .ed 3, bondHeight := 1, unbondHeight := 0,
        lastCommitHeight := 0, votingPower := 10, accum := 0 } = none :=
  (bond_duplicate_unbondTo_release_panics
    { lastBlockHeight := 0, lastBlockHash := 0, lastBlockParts := 0, lastBlockTime := 0,
      bonded := [], unbonding := [],
      accounts := [(7, { address := 7, pubKey := .ed 7, sequence := 0, balance := 100 })],
      validatorInfos := [] }
    [{ address := 7, amount := 10, sequence := 1,
       signature := some (7, bondSignBytes
         [{ address := 7, amount := 10, sequence := 1, signature := none, pubKey := .nil }]
         [⟨9, 5⟩, ⟨9, 5⟩] (.ed 3)),
       pubKey := .nil }] [⟨9, 5⟩, ⟨9, 5⟩] (.ed 3)
    { lastBlockHeight := 0, lastBlockHash := 0, lastBlockParts := 0, lastBlockTime := 0,
      bonded := [{ address := 3, pubKey := .ed 3, bondHeight := 1, unbondHeight := 0,
                   lastCommitHeight := 0, votingPower := 10, accum := 0 }],
      unbonding := [],
      accounts := [(7, { address := 7, pubKey := .ed 7, sequence := 1, balance := 90 })],
      validatorInfos := [(3, { address := 3, pubKey := .ed 3,
                               unbondTo := [⟨9, 5⟩, ⟨9, 5⟩],
                               firstBondHeight := 1, firstBondAmount := 10,
                               releasedHeight := 0, destroyedHeight := 0,
                               destroyedAmount := 0 })] }
    (by decide) (by decide)
    { address := 3, pubKey := .ed 3, bondHeight := 1, unbondHeight := 0,
      lastCommitHeight := 0, votingPower := 10, accum := 0 }
    (by decide)).1

/-! ## Lemmas about the AppendBlock passes -/

theorem vsUpdate_map_address {l l' : List Validator} {v : Validator}
    (h : vsUpdate l v = some l') :
    l'.map Validator.address = l.map Validator.address := by
  induction l generalizing l' with
  | nil => simp [vsUpdate] at h
  | cons w rest ih =>
    rw [vsUpdate] at h
    by_cases hw : w.address = v.address
    · rw [if_pos hw] at h
      injection h with h
      subst h
      simp [hw]
    · rw [if_neg hw] at h
      obtain ⟨l'', hl'', hle⟩ := Option.map_eq_some'.mp h
      subst hle
      simp [ih hl'']

theorem vsAdd_mem {l l' : List Validator} {v : Validator}
    (h : vsAdd l v = some l') :
    ∀ u ∈ l', u = v ∨ u ∈ l := by
  induction l generalizing l' with
  | nil =>
    rw [vsAdd] at h
    injection h with h
    subst h
    simp
  | cons w rest ih =>
    rw [vsAdd] at h
    by_cases hlt : v.address < w.address
    · rw [if_pos hlt] at h
      injection h with h
      subst h
      intro u hu
      rcases List.mem_cons.mp hu with h1 | h2
      · exact Or.inl h1
      · exact Or.inr h2
    · rw [if_neg hlt] at h
      by_cases heq : v.address = w.address
      · rw [if_pos heq] at h
        cases h
      · rw [if_neg heq] at h
        obtain ⟨l'', hl'', hle⟩ := Option.map_eq_some'.mp h
        subst hle
        intro u hu
        rcases List.mem_cons.mp hu with h1 | h2
        · exact Or.inr (h1 ▸ List.mem_cons_self w rest)
        · rcases ih hl'' u h2 with h3 | h4
          · exact Or.inl h3
          · exact Or.inr (List.mem_cons_of_mem _ h4)

theorem updateLCHAux_preserves (h : Nat) (cs : List Commit) :
    ∀ (s s' : State) (i : Nat), updateLCHAux h s cs i = some s' →
    s'.accounts = s.accounts ∧ s'.unbonding = s.unbonding ∧
    s'.validatorInfos = s.validatorInfos ∧ s'.lastBlockHeight = s.lastBlockHeight ∧
    s'.bonded.map Validator.address = s.bonded.map Validator.address := by
  induction cs with
  | nil =>
    intro s s' i hu
    rw [updateLCHAux] at hu
    injection hu with hu
    subst hu
    exact ⟨rfl, rfl, rfl, rfl, rfl⟩
  | cons c rest ih =>
    intro s s' i hu
    rw [updateLCHAux] at hu
    by_cases hz : c.isZero
    · rw [if_pos hz] at hu
      exact ih s s' (i + 1) hu
    · rw [if_neg hz] at hu
      cases hidx : s.bonded[i]? with
      | none => simp [hidx] at hu
      | some val =>
        simp only [hidx] at hu
        cases hupd : vsUpdate s.bonded { val with lastCommitHeight := h - 1 } with
        | none => simp [hupd] at hu
        | some bonded' =>
          simp only [hupd] at hu
          obtain ⟨h1, h2, h3, h4, h5⟩ := ih _ s' (i + 1) hu
          exact ⟨h1, h2, h3, h4, by rw [h5]; exact vsUpdate_map_address hupd⟩

theorem releaseValidator_preserves_bonded {s s' : State} {v : Validator}
    (h : releaseValidator s v = some s') :
    s'.bonded = s.bonded ∧ s'.lastBlockHeight = s.lastBlockHeight := by
  rw [releaseValidator] at h
  cases hvi : s.getValidatorInfo v.address with
  | none => rw [hvi] at h; cases h
  | some vi =>
    rw [hvi] at h
    simp only [] at h
    split at h
    · cases h
    next accs x hgoma =>
      split at h
      · cases h
      next accs' hadj =>
        split at h
        · cases h
        next w unbonding' hrem =>
          injection h with h
          subst h
          exact ⟨rfl, rfl⟩

theorem releaseList_preserves_bonded {lst : List Validator} :
    ∀ {s s' : State}, releaseList s lst = some s' →
    s'.bonded = s.bonded ∧ s'.lastBlockHeight = s.lastBlockHeight := by
  induction lst with
  | nil =>
    intro s s' h
    rw [releaseList] at h
    injection h with h
    subst h
    exact ⟨rfl, rfl⟩
  | cons v rest ih =>
    intro s s' h
    rw [releaseList] at h
    cases hr : releaseValidator s v with
    | none => rw [hr] at h; cases h
    | some s1 =>
      rw [hr] at h
      obtain ⟨h1, h2⟩ := releaseValidator_preserves_bonded hr
      obtain ⟨h3, h4⟩ := ih h
      exact ⟨h3.trans h1, h4.trans h2⟩

theorem vsRemove_some_addr {l l' : List Validator} {addr : Nat} {w : Validator}
    (h : vsRemove l addr = some (w, l')) : w.address = addr := by
  induction l generalizing l' with
  | nil => simp [vsRemove] at h
  | cons x rest ih =>
    rw [vsRemove] at h
    by_cases hx : x.address = addr
    · rw [if_pos hx] at h
      injection h with h
      injection h with h1 h2
      subst h1
      exact hx
    · rw [if_neg hx] at h
      obtain ⟨p, hp, hpe⟩ := Option.map_eq_some'.mp h
      injection hpe with hp1 hp2
      exact ih (by rw [hp, ← hp1])

theorem unbondValidator_effects {s s' : State} {v : Validator}
    (h : unbondValidator s v = some s') :
    s'.accounts = s.accounts ∧ s'.validatorInfos = s.validatorInfos ∧
    s'.lastBlockHeight = s.lastBlockHeight ∧
    (∀ u ∈ s'.unbonding, u.address = v.address ∨ u ∈ s.unbonding) ∧
    (∀ u ∈ s'.bonded, u ∈ s.bonded) := by
  rw [unbondValidator] at h
  cases hrem : vsRemove s.bonded v.address with
  | none => rw [hrem] at h; cases h
  | some p =>
    obtain ⟨w, bonded'⟩ := p
    simp only [hrem] at h
    cases hadd : vsAdd s.unbonding { w with unbondHeight := w64 (s.lastBlockHeight + 1) } with
    | none => simp [hadd] at h
    | some unbonding' =>
      simp only [hadd] at h
      injection h with h
      subst h
      refine ⟨rfl, rfl, rfl, ?_, ?_⟩
      · intro u hu
        rcases vsAdd_mem hadd u hu with h1 | h2
        · exact Or.inl (by rw [h1]; show w.address = v.address; exact vsRemove_some_addr hrem)
        · exact Or.inr h2
      · intro u hu
        exact vsRemove_mem hrem hu

theorem timeoutList_effects {lst : List Validator} :
    ∀ {s s' : State}, timeoutList s lst = some s' →
    s'.accounts = s.accounts ∧ s'.validatorInfos = s.validatorInfos ∧
    s'.lastBlockHeight = s.lastBlockHeight ∧
    (∀ u ∈ s'.unbonding, (∃ w ∈ lst, u.address = w.address) ∨ u ∈ s.unbonding) := by
  induction lst with
  | nil =>
    intro s s' h
    rw [timeoutList] at h
    injection h with h
    subst h
    exact ⟨rfl, rfl, rfl, fun u hu => Or.inr hu⟩
  | cons v rest ih =>
    intro s s' h
    rw [timeoutList] at h
    cases hu1 : unbondValidator s v with
    | none => rw [hu1] at h; cases h
    | some s1 =>
      rw [hu1] at h
      obtain ⟨ha, hi, hl, hunb, hbnd⟩ := unbondValidator_effects hu1
      obtain ⟨ha', hi', hl', hunb'⟩ := ih h
      refine ⟨ha'.trans ha, hi'.trans hi, hl'.trans hl, ?_⟩
      intro u hu
      rcases hunb' u hu with ⟨w, hw, hwa⟩ | h2
      · exact Or.inl ⟨w, List.mem_cons_of_mem _ hw, hwa⟩
      · rcases hunb u h2 with h3 | h4
        · exact Or.inl ⟨v, List.mem_cons_self v rest, h3⟩
        · exact Or.inr h4

/-! ## C2: a validator is released one block after unbond_height + period -/

/-- C2 amended: a validator that entered unbonding with
`unbond_height = H + 1` is released by the `AppendBlock` of the block at height
`H + 2 + UNBONDING_PERIOD` — the first height h with
`unbond_height + UNBONDING_PERIOD < h` — not at `H + 1 + UNBONDING_PERIOD`:
its recorded `unbond_to` output is credited, it leaves the unbonding set, and
`validator_infos` at its address gets `released_height = B.height`. -/
theorem release_fires_at_unbond_height_plus_period_plus_one
    (s : State) (b : Block) (ph H : Nat) (v : Validator) (vi : ValidatorInfo)
    (a0 : Account) (outAddr amt : Nat) (s' : State)
    (htxs : b.txs = [])
    (hunb : s.unbonding = [v])
    (hvh : v.unbondHeight = H + 1)
    (hbh : b.height = H + 2 + unbondingPeriodBlocks)
    (hsmall : H + 2 + unbondingPeriodBlocks < 2 ^ 64)
    (hvi : s.getValidatorInfo v.address = some vi)
    (hviaddr : vi.address = v.address)
    (hout : vi.unbondTo = [⟨outAddr, amt⟩])
    (hacc : s.getAccount outAddr = some a0)
    (hnb : ∀ w ∈ s.bonded, w.address ≠ v.address)
    (hok : appendBlock s b ph false = .ok s') :
    vsGet s'.unbonding v.address = none ∧
    s'.getValidatorInfo v.address = some { vi with releasedHeight := b.height } ∧
    s'.getAccount outAddr = some { a0 with balance := w64 (a0.balance + amt) } := by
  cases hbasic : b.validateBasic s.lastBlockHeight s.lastBlockHash s.lastBlockParts
      s.lastBlockTime with
  | false => simp [appendBlock, hbasic] at hok
  | true =>
  have hb1 : b.height = w64 (s.lastBlockHeight + 1) := by
    simp only [Block.validateBasic, Bool.and_eq_true, decide_eq_true_eq] at hbasic
    exact hbasic.1.1.1
  have hne1 : ¬ (b.height = 1) := by
    rw [hbh]
    simp only [unbondingPeriodBlocks]
    omega
  by_cases hlen : b.commits.length = s.bonded.length
  case neg => simp [appendBlock, hbasic, hne1, hlen] at hok
  case pos =>
  cases hsum : sumCommits s b with
  | err => simp [appendBlock, hbasic, hne1, hlen, hsum] at hok
  | ok sum =>
  by_cases hgate : sum ≤ w64 (vsTotalPower s.bonded * 2) / 3
  · simp [appendBlock, hbasic, hne1, hlen, hsum, hgate] at hok
  · have hrest : appendBlockRest s b ph false = .ok s' := by
      rw [← hok]
      simp [appendBlock, hbasic, hne1, hlen, hsum, hgate]
    rw [appendBlockRest, htxs] at hrest
    simp only [execTxs] at hrest
    cases h4 : updateLCHAux b.height s b.commits 0 with
    | none => simp [h4] at hrest
    | some s4 =>
    simp only [h4] at hrest
    obtain ⟨P4a, P4u, P4i, P4h, P4b⟩ := updateLCHAux_preserves b.height b.commits s s4 0 h4
    have hcondv : w64 (v.unbondHeight + unbondingPeriodBlocks) < b.height := by
      rw [hvh, hbh, w64_eq_of_lt (by omega)]
      omega
    have hfil : s4.unbonding.filter
        (fun u => decide (w64 (u.unbondHeight + unbondingPeriodBlocks) < b.height)) = [v] := by
      rw [P4u, hunb, List.filter_cons_of_pos (by simpa using hcondv), List.filter_nil]
    have hvi4 : treeGet s4.validatorInfos v.address = some vi := by rw [P4i]; exact hvi
    have hacc4 : treeGet s4.accounts outAddr = some a0 := by rw [P4a]; exact hacc
    have hrelv : releaseValidator s4 v = some { s4 with
        validatorInfos := treeSet s4.validatorInfos vi.address
          { vi with releasedHeight := w64 (s4.lastBlockHeight + 1) },
        accounts := treeSet s4.accounts outAddr
          { a0 with balance := w64 (a0.balance + amt) },
        unbonding := [] } := by
      simp only [releaseValidator, State.getValidatorInfo, hvi4, hout, State.setValidatorInfo,
        getOrMakeAccounts, getOrMakeIns, getOrMakeOuts, State.getAccount, treeGet, treeSet,
        adjustByOutputs, State.updateAccounts, List.foldl, vsRemove, P4u, hunb,
        Option.isSome_none, Bool.false_eq_true, if_false, if_true, ite_true, ite_false]
      simp [hacc4, treeGet, treeSet, vsRemove, P4u, hunb, State.updateAccounts, List.foldl]
    have hrel : releasePass s4 b.height = some { s4 with
        validatorInfos := treeSet s4.validatorInfos vi.address
          { vi with releasedHeight := w64 (s4.lastBlockHeight + 1) },
        accounts := treeSet s4.accounts outAddr
          { a0 with balance := w64 (a0.balance + amt) },
        unbonding := [] } := by
      rw [releasePass, hfil]
      simp only [releaseList, hrelv]
    simp only [hrel] at hrest
    rw [timeoutPass] at hrest
    cases h6 : timeoutList { s4 with
        validatorInfos := treeSet s4.validatorInfos vi.address
          { vi with releasedHeight := w64 (s4.lastBlockHeight + 1) },
        accounts := treeSet s4.accounts outAddr
          { a0 with balance := w64 (a0.balance + amt) },
        unbonding := [] }
      (({ s4 with
        validatorInfos := treeSet s4.validatorInfos vi.address
          { vi with releasedHeight := w64 (s4.lastBlockHeight + 1) },
        accounts := treeSet s4.accounts outAddr
          { a0 with balance := w64 (a0.balance + amt) },
        unbonding := [] } : State).bonded.filter
        (fun u => decide (w64 (u.lastCommitHeight + validatorTimeoutBlocks) < b.height))) with
    | none => simp [h6] at hrest
    | some s6 =>
    simp only [h6] at hrest
    obtain ⟨T6a, T6i, T6h, T6u⟩ := timeoutList_effects h6
    have hfin : s' = finalizeTail { s6 with bonded := incrementAccumOnce s6.bonded } b ph := by
      by_cases hsh : b.stateHash = none
      · simp [hsh] at hrest
        exact hrest.symm
      · simp [hsh] at hrest
    have hs'u : s'.unbonding = s6.unbonding := by rw [hfin]; rfl
    have hs'i : s'.validatorInfos = s6.validatorInfos := by rw [hfin]; rfl
    have hs'a : s'.accounts = s6.accounts := by rw [hfin]; rfl
    refine ⟨?_, ?_, ?_⟩
    · rw [hs'u]
      refine (vsGet_eq_none_iff _ _).mpr ?_
      intro u hu hua
      rcases T6u u hu with ⟨w, hw, hwa⟩ | h2
      · have hwmem : w ∈ s4.bonded := (List.mem_filter.mp hw).1
        have : w.address ∈ s.bonded.map Validator.address := by
          rw [← P4b]
          exact List.mem_map_of_mem _ hwmem
        obtain ⟨w0, hw0, hw0a⟩ := List.mem_map.mp this
        exact hnb w0 hw0 (by rw [hw0a, ← hwa, hua])
      · simp at h2
    · rw [State.getValidatorInfo, hs'i, T6i]
      show treeGet (treeSet s4.validatorInfos vi.address
        { vi with releasedHeight := w64 (s4.lastBlockHeight + 1) }) v.address = _
      rw [← hviaddr, treeGet_set_self, P4h, ← hb1]
    · rw [State.getAccount, hs'a, T6a]
      show treeGet (treeSet s4.accounts outAddr
        { a0 with balance := w64 (a0.balance + amt) }) outAddr = _
      rw [treeGet_set_self]

/-- The concrete pre-state of the C2 counterexample: H = 1, one bonded
validator of power 100, one unbonding validator with `unbond_height = H + 1 = 2`,
`last_block_height = H + UNBONDING_PERIOD` so the next block has height
`H + 1 + UNBONDING_PERIOD`. -/
def c2cs : State :=
  { lastBlockHeight := 525601, lastBlockHash := 55, lastBlockParts := 66, lastBlockTime := 10,
    bonded := [{ address := 1, pubKey := .ed 1, bondHeight := 1, unbondHeight := 0,
                 lastCommitHeight := 525600, votingPower := 100, accum := 0 }],
    unbonding := [{ address := 2, pubKey := .ed 2, bondHeight := 1, unbondHeight := 2,
                    lastCommitHeight := 1, votingPower := 40, accum := 0 }],
    accounts := [(8, { address := 8, pubKey := .ed 8, sequence := 0, balance := 7 })],
    validatorInfos := [(2, { address := 2, pubKey := .ed 2, unbondTo := [⟨8, 40⟩],
                             firstBondHeight := 1, firstBondAmount := 40, releasedHeight := 0,
                             destroyedHeight := 0, destroyedAmount := 0 })] }

/-- The concrete block of the C2 counterexample, at height
`H + 1 + UNBONDING_PERIOD = 525602`. -/
def c2cb : Block :=
  { height := 525602, time := 11, lastBlockHash := 55, lastBlockParts := 66, stateHash := none,
    commits := [{ round := 0, signature := some (1, .vote 525601 0 .commit 55 66) }], txs := [] }

/-- Counterexample to C2 as stated: with `unbond_height = H + 1` (H = 1), the
successful `AppendBlock` of the block at height `H + 1 + UNBONDING_PERIOD`
does **not** release the validator — it stays in the unbonding set, its
`released_height` stays 0, and its `unbond_to` output is not credited.
(The release condition `unbond_height + UNBONDING_PERIOD < B.height` is strict,
so the release only fires one block later.) -/
theorem release_not_fired_at_H_plus_1_plus_period_counterexample :
    c2cb.height = 1 + 1 + unbondingPeriodBlocks ∧
    (∃ i v, vsGet c2cs.unbonding 2 = some (i, v) ∧ v.unbondHeight = 1 + 1) ∧
    appendBlock c2cs c2cb 66 false =
      .ok { lastBlockHeight := 525602, lastBlockHash := 276257988017, lastBlockParts := 66,
            lastBlockTime := 11,
            bonded := [{ address := 1, pubKey := .ed 1, bondHeight := 1, unbondHeight := 0,
                         lastCommitHeight := 525601, votingPower := 100, accum := 0 }],
            unbonding := [{ address := 2, pubKey := .ed 2, bondHeight := 1, unbondHeight := 2,
                            lastCommitHeight := 1, votingPower := 40, accum := 0 }],
            accounts := [(8, { address := 8, pubKey := .ed 8, sequence := 0, balance := 7 })],
            validatorInfos := [(2, { address := 2, pubKey := .ed 2, unbondTo := [⟨8, 40⟩],
                                     firstBondHeight := 1, firstBondAmount := 40,
                                     releasedHeight := 0, destroyedHeight := 0,
                                     destroyedAmount := 0 })] } :=
  ⟨by decide, ⟨0, { address := 2, pubKey := .ed 2, bondHeight := 1, unbondHeight := 2, lastCommitHeight := 1, votingPower := 40, accum := 0 }, by decide, by decide⟩, by decide⟩

/-- The concrete pre-state of the C2 witness: as `c2cs` but one block later. -/
def c2ws : State := { c2cs with lastBlockHeight := 525602 }

/-- The concrete block of the C2 witness, at height
`H + 2 + UNBONDING_PERIOD = 525603`. -/
def c2wb : Block :=
  { height := 525603, time := 11, lastBlockHash := 55, lastBlockParts := 66, stateHash := none,
    commits := [{ round := 0, signature := some (1, .vote 525602 0 .commit 55 66) }], txs := [] }

/-- The unbonding validator of the C2 scenario. -/
def c2wv : Validator :=
  { address := 2, pubKey := .ed 2, bondHeight := 1, unbondHeight := 2,
    lastCommitHeight := 1, votingPower := 40, accum := 0 }

/-- Its validator-info record. -/
def c2wvi : ValidatorInfo :=
  { address := 2, pubKey := .ed 2, unbondTo := [⟨8, 40⟩], firstBondHeight := 1,
    firstBondAmount := 40, releasedHeight := 0, destroyedHeight := 0, destroyedAmount := 0 }

/-- The `unbond_to` target account of the C2 scenario. -/
def c2wa : Account := { address := 8, pubKey := .ed 8, sequence := 0, balance := 7 }

/-- Witness for the amended C2: at height `H + 2 + UNBONDING_PERIOD` the
validator is released, stamped and credited. -/
theorem release_fires_at_unbond_height_plus_period_plus_one_witness :
    vsGet
      ({ lastBlockHeight := 525603, lastBlockHash := 276259039223, lastBlockParts := 66,
         lastBlockTime := 11,
         bonded := [{ address := 1, pubKey := .ed 1, bondHeight := 1, unbondHeight := 0,
                      lastCommitHeight := 525602, votingPower := 100, accum := 0 }],
         unbonding := [],
         accounts := [(8, { address := 8, pubKey := .ed 8, sequence := 0, balance := 47 })],
         validatorInfos := [(2, { address := 2, pubKey := .ed 2, unbondTo := [⟨8, 40⟩],
                                  firstBondHeight := 1, firstBondAmount := 40,
                                  releasedHeight := 525603, destroyedHeight := 0,
                                  destroyedAmount := 0 })] } : State).unbonding
      c2wv.address = none ∧
    ({ lastBlockHeight := 525603, lastBlockHash := 276259039223, lastBlockParts := 66,
       lastBlockTime := 11,
       bonded := [{ address := 1, pubKey := .ed 1, bondHeight := 1, unbondHeight := 0,
                    lastCommitHeight := 525602, votingPower := 100, accum := 0 }],
       unbonding := [],
       accounts := [(8, { address := 8, pubKey := .ed 8, sequence := 0, balance := 47 })],
       validatorInfos := [(2, { address := 2, pubKey := .ed 2, unbondTo := [⟨8, 40⟩],
                                firstBondHeight := 1, firstBondAmount := 40,
                                releasedHeight := 525603, destroyedHeight := 0,
                                destroyedAmount := 0 })] } : State).getValidatorInfo
      c2wv.address = some { c2wvi with releasedHeight := c2wb.height } ∧
    ({ lastBlockHeight := 525603, lastBlockHash := 276259039223, lastBlockParts := 66,
       lastBlockTime := 11,
       bonded := [{ address := 1, pubKey := .ed 1, bondHeight := 1, unbondHeight := 0,
                    lastCommitHeight := 525602, votingPower := 100, accum := 0 }],
       unbonding := [],
       accounts := [(8, { address := 8, pubKey := .ed 8, sequence := 0, balance := 47 })],
       validatorInfos := [(2, { address := 2, pubKey := .ed 2, unbondTo := [⟨8, 40⟩],
                                firstBondHeight := 1, firstBondAmount := 40,
                                releasedHeight := 525603, destroyedHeight := 0,
                                destroyedAmount := 0 })] } : State).getAccount 8 =
      some { c2wa with balance := w64 (c2wa.balance + 40) } :=
  release_fires_at_unbond_height_plus_period_plus_one c2ws c2wb 66 1 c2wv c2wvi c2wa 8 40 _
    (by decide) (by decide) (by decide) (by decide) (by decide) (by decide) (by decide)
    (by decide) (by decide) (by decide) (by decide)

/-! ## C8: commit-slot alignment and the validator-timeout pass -/

theorem getElem?_addr_ne {l : List Validator} (hnd : (l.map Validator.address).Nodup)
    {m i : Nat} {w val : Validator}
    (hm : l[m]? = some w) (hi : l[i]? = some val) (hne : m ≠ i) :
    w.address ≠ val.address := by
  intro he
  have h1 : (l.map Validator.address)[m]? = some w.address := by
    rw [List.getElem?_map, hm]
    rfl
  have h2 : (l.map Validator.address)[i]? = some val.address := by
    rw [List.getElem?_map, hi]
    rfl
  have hlt : m < (l.map Validator.address).length := (List.getElem?_eq_some.mp h1).1
  exact hne (List.getElem?_inj hlt hnd (by rw [h1, h2, he]))

theorem vsUpdate_getElem_ne {l l' : List Validator} {v : Validator}
    (h : vsUpdate l v = some l') :
    ∀ (m : Nat) (w : Validator), l[m]? = some w → w.address ≠ v.address → l'[m]? = some w := by
  induction l generalizing l' with
  | nil => simp [vsUpdate] at h
  | cons x rest ih =>
    rw [vsUpdate] at h
    by_cases hx : x.address = v.address
    · rw [if_pos hx] at h
      injection h with h
      subst h
      intro m w hm hw
      cases m with
      | zero =>
        simp only [List.getElem?_cons_zero, Option.some.injEq] at hm
        exact absurd (hm ▸ hx) hw
      | succ m' => simpa using hm
    · rw [if_neg hx] at h
      obtain ⟨l'', hl'', hle⟩ := Option.map_eq_some'.mp h
      subst hle
      intro m w hm hw
      cases m with
      | zero => simpa using hm
      | succ m' =>
        simp only [List.getElem?_cons_succ] at hm ⊢
        exact ih hl'' m' w hm hw

theorem vsUpdate_getElem_eq {l l' : List Validator} {v : Validator}
    (h : vsUpdate l v = some l') (hnd : (l.map Validator.address).Nodup) :
    ∀ (m : Nat) (w : Validator), l[m]? = some w → w.address = v.address → l'[m]? = some v := by
  induction l generalizing l' with
  | nil => simp [vsUpdate] at h
  | cons x rest ih =>
    rw [vsUpdate] at h
    simp only [List.map_cons, List.nodup_cons] at hnd
    by_cases hx : x.address = v.address
    · rw [if_pos hx] at h
      injection h with h
      subst h
      intro m w hm hw
      cases m with
      | zero => simp
      | succ m' =>
        simp only [List.getElem?_cons_succ] at hm
        have hwm : w ∈ rest := by
          obtain ⟨hlt, he⟩ := List.getElem?_eq_some.mp hm
          exact he ▸ rest.getElem_mem hlt
        have hmem : w.address ∈ rest.map Validator.address := List.mem_map_of_mem _ hwm
        rw [hw, ← hx] at hmem
        exact absurd hmem hnd.1
    · rw [if_neg hx] at h
      obtain ⟨l'', hl'', hle⟩ := Option.map_eq_some'.mp h
      subst hle
      intro m w hm hw
      cases m with
      | zero =>
        simp only [List.getElem?_cons_zero, Option.some.injEq] at hm
        exact absurd (hm ▸ hw) hx
      | succ m' =>
        simp only [List.getElem?_cons_succ] at hm ⊢
        exact ih hl'' hnd.2 m' w hm hw

theorem vsUpdate_length {l l' : List Validator} {v : Validator}
    (h : vsUpdate l v = some l') : l'.length = l.length := by
  have := vsUpdate_map_address h
  have h1 : (l'.map Validator.address).length = (l.map Validator.address).length := by rw [this]
  simpa using h1

theorem updateLCH_getElem_lt (h : Nat) (cs : List Commit) :
    ∀ (s s' : State) (j : Nat), updateLCHAux h s cs j = some s' →
    (s.bonded.map Validator.address).Nodup →
    ∀ m, m < j → s'.bonded[m]? = s.bonded[m]? := by
  induction cs with
  | nil =>
    intro s s' j hu _ m _
    rw [updateLCHAux] at hu
    injection hu with hu
    rw [← hu]
  | cons c rest ih =>
    intro s s' j hu hnd m hm
    rw [updateLCHAux] at hu
    by_cases hz : c.isZero
    · rw [if_pos hz] at hu
      exact ih s s' (j + 1) hu hnd m (Nat.lt_succ_of_lt hm)
    · rw [if_neg hz] at hu
      cases hidx : s.bonded[j]? with
      | none => simp [hidx] at hu
      | some val =>
        simp only [hidx] at hu
        cases hupd : vsUpdate s.bonded { val with lastCommitHeight := h - 1 } with
        | none => simp [hupd] at hu
        | some bonded' =>
          simp only [hupd] at hu
          have hnd' : (bonded'.map Validator.address).Nodup := by
            rw [vsUpdate_map_address hupd]
            exact hnd
          have hrec := ih _ s' (j + 1) hu hnd' m (Nat.lt_succ_of_lt hm)
          rw [hrec]
          show bonded'[m]? = s.bonded[m]?
          cases hq : s.bonded[m]? with
          | none =>
            have hlen : bonded'.length = s.bonded.length := vsUpdate_length hupd
            have hge : s.bonded.length ≤ m := List.getElem?_eq_none_iff.mp hq
            exact List.getElem?_eq_none (by rw [hlen]; exact hge)
          | some w =>
            exact vsUpdate_getElem_ne hupd m w hq
              (show w.address ≠ val.address from
                getElem?_addr_ne hnd hq hidx (Nat.ne_of_lt hm))

theorem updateLCH_sets_index (h : Nat) (cs : List Commit) :
    ∀ (s s' : State) (j : Nat), updateLCHAux h s cs j = some s' →
    (s.bonded.map Validator.address).Nodup →
    ∀ k c, cs[k]? = some c → c.isZero = false →
    ∃ u, s'.bonded[j + k]? = some u ∧ u.lastCommitHeight = h - 1 := by
  induction cs with
  | nil =>
    intro s s' j _ _ k c hck _
    simp at hck
  | cons c0 rest ih =>
    intro s s' j hu hnd k c hck hcz
    rw [updateLCHAux] at hu
    cases k with
    | zero =>
      simp only [List.getElem?_cons_zero, Option.some.injEq] at hck
      subst hck
      rw [if_neg (by rw [hcz]; simp)] at hu
      cases hidx : s.bonded[j]? with
      | none => simp [hidx] at hu
      | some val =>
        simp only [hidx] at hu
        cases hupd : vsUpdate s.bonded { val with lastCommitHeight := h - 1 } with
        | none => simp [hupd] at hu
        | some bonded' =>
          simp only [hupd] at hu
          have hnd' : (bonded'.map Validator.address).Nodup := by
            rw [vsUpdate_map_address hupd]
            exact hnd
          have hb' : bonded'[j]? = some { val with lastCommitHeight := h - 1 } :=
            vsUpdate_getElem_eq hupd hnd j val hidx rfl
          have hkeep := updateLCH_getElem_lt h rest _ s' (j + 1) hu hnd' j (Nat.lt_succ_self j)
          refine ⟨{ val with lastCommitHeight := h - 1 }, ?_, rfl⟩
          rw [Nat.add_zero, hkeep]
          exact hb'
    | succ k' =>
      simp only [List.getElem?_cons_succ] at hck
      by_cases hz : c0.isZero
      · rw [if_pos hz] at hu
        obtain ⟨u, hu', hul⟩ := ih s s' (j + 1) hu hnd k' c hck hcz
        exact ⟨u, by rw [show j + (k' + 1) = (j + 1) + k' by omega]; exact hu', hul⟩
      · rw [if_neg hz] at hu
        cases hidx : s.bonded[j]? with
        | none => simp [hidx] at hu
        | some val =>
          simp only [hidx] at hu
          cases hupd : vsUpdate s.bonded { val with lastCommitHeight := h - 1 } with
          | none => simp [hupd] at hu
          | some bonded' =>
            simp only [hupd] at hu
            have hnd' : (bonded'.map Validator.address).Nodup := by
              rw [vsUpdate_map_address hupd]
              exact hnd
            obtain ⟨u, hu', hul⟩ := ih _ s' (j + 1) hu hnd' k' c hck hcz
            exact ⟨u, by rw [show j + (k' + 1) = (j + 1) + k' by omega]; exact hu', hul⟩

theorem vsRemove_mem_preserve {l l' : List Validator} {addr : Nat} {x v : Validator}
    (h : vsRemove l addr = some (x, l')) (hv : v ∈ l) (hne : v.address ≠ addr) : v ∈ l' := by
  induction l generalizing l' with
  | nil => simp [vsRemove] at h
  | cons w rest ih =>
    rw [vsRemove] at h
    by_cases hw : w.address = addr
    · rw [if_pos hw] at h
      injection h with h
      injection h with h1 h2
      subst h2
      rcases List.mem_cons.mp hv with h3 | h4
      · exact absurd (h3 ▸ hw) hne
      · exact h4
    · rw [if_neg hw] at h
      obtain ⟨p, hp, hpe⟩ := Option.map_eq_some'.mp h
      injection hpe with hp1 hp2
      subst hp2
      rcases List.mem_cons.mp hv with h3 | h4
      · exact h3 ▸ List.mem_cons_self w p.2
      · exact List.mem_cons_of_mem _ (ih (by rw [hp, ← hp1]) h4)

theorem timeoutList_keeps {lst : List Validator} :
    ∀ {s s' : State}, timeoutList s lst = some s' →
    ∀ v, v ∈ s.bonded → (∀ w ∈ lst, w.address ≠ v.address) → v ∈ s'.bonded := by
  induction lst with
  | nil =>
    intro s s' h v hv _
    rw [timeoutList] at h
    injection h with h
    exact h ▸ hv
  | cons w rest ih =>
    intro s s' h v hv hne
    rw [timeoutList] at h
    cases hu1 : unbondValidator s w with
    | none => rw [hu1] at h; cases h
    | some s1 =>
      rw [hu1] at h
      have hv1 : v ∈ s1.bonded := by
        rw [unbondValidator] at hu1
        cases hrem : vsRemove s.bonded w.address with
        | none => rw [hrem] at hu1; cases hu1
        | some p =>
          obtain ⟨x, bonded'⟩ := p
          simp only [hrem] at hu1
          cases hadd : vsAdd s.unbonding
              { x with unbondHeight := w64 (s.lastBlockHeight + 1) } with
          | none => simp [hadd] at hu1
          | some unbonding' =>
            simp only [hadd] at hu1
            injection hu1 with hu1
            subst hu1
            exact vsRemove_mem_preserve hrem hv
              (fun he => hne w (List.mem_cons_self w rest) he.symm)
      exact ih h v hv1 (fun u hu => hne u (List.mem_cons_of_mem _ hu))

/-- C8 amended: within a single `AppendBlock`, for every non-zero commit slot
`i`, the validator found at index `i` of the **post-transaction** bonded set
(the set the LastCommitHeight pass actually indexes) has its
`last_commit_height` set to `B.height - 1` and is never moved to unbonding by
the validator-timeout pass of the same `AppendBlock`.  (As stated — with slots
aligned to the pre-transaction bonded set — the claim fails when a transaction
of the block changes the bonded set's index assignment; see the
counterexample.) -/
theorem committer_at_post_tx_index_does_not_timeout
    (h : Nat) (cs : List Commit) (s3 s4 s5 s6 : State) (i : Nat) (c : Commit) (v : Validator)
    (hnd : (s3.bonded.map Validator.address).Nodup)
    (h4 : updateLCHAux h s3 cs 0 = some s4)
    (hc : cs[i]? = some c) (hcz : c.isZero = false)
    (hv : s4.bonded[i]? = some v)
    (h5 : releasePass s4 h = some s5)
    (h6 : timeoutPass s5 h = some s6)
    (hh1 : 1 ≤ h) (hov : h + 9 < 2 ^ 64) :
    v.lastCommitHeight = h - 1 ∧
    ¬ (w64 (v.lastCommitHeight + validatorTimeoutBlocks) < h) ∧
    v ∈ s6.bonded := by
  obtain ⟨u, hu, hul⟩ := updateLCH_sets_index h cs s3 s4 0 h4 hnd i c hc hcz
  rw [Nat.zero_add, hv] at hu
  injection hu with hu
  subst hu
  have hvl : v.lastCommitHeight = h - 1 := hul
  have hcond : ¬ (w64 (v.lastCommitHeight + validatorTimeoutBlocks) < h) := by
    rw [hvl]
    simp only [validatorTimeoutBlocks]
    rw [w64_eq_of_lt (by omega)]
    omega
  obtain ⟨R5b, _⟩ := releaseList_preserves_bonded (by rw [releasePass] at h5; exact h5)
  have hvm4 : v ∈ s4.bonded := by
    obtain ⟨hlt, he⟩ := List.getElem?_eq_some.mp hv
    exact he ▸ s4.bonded.getElem_mem hlt
  have hvm5 : v ∈ s5.bonded := R5b ▸ hvm4
  have hnd5 : (s5.bonded.map Validator.address).Nodup := by
    rw [R5b, (updateLCHAux_preserves h cs s3 s4 0 h4).2.2.2.2]
    exact hnd
  rw [timeoutPass] at h6
  refine ⟨hvl, hcond, timeoutList_keeps h6 v hvm5 ?_⟩
  intro w hw hwa
  have hwm : w ∈ s5.bonded := (List.mem_filter.mp hw).1
  have hwc := (List.mem_filter.mp hw).2
  have hwv : w = v := List.inj_on_of_nodup_map hnd5 hwm hvm5 hwa
  subst hwv
  simp only [decide_eq_true_eq] at hwc
  exact hcond hwc

/-- The concrete pre-state of the C8 counterexample: one bonded validator
V at address 5 (power 100) whose `last_commit_height` is still 0, and a funded
account for a BondTx. -/
def c8cs : State :=
  { lastBlockHeight := 11, lastBlockHash := 55, lastBlockParts := 66, lastBlockTime := 10,
    bonded := [{ address := 5, pubKey := .ed 5, bondHeight := 1, unbondHeight := 0,
                 lastCommitHeight := 0, votingPower := 100, accum := 0 }],
    unbonding := [],
    accounts := [(7, { address := 7, pubKey := .ed 7, sequence := 0, balance := 100 })],
    validatorInfos := [] }

/-- The concrete block of the C8 counterexample: V's valid commit fills slot 0,
and a BondTx creates a new validator at the smaller address 3, shifting V to
index 1 of the post-transaction bonded set. -/
def c8cb : Block :=
  { height := 12, time := 11, lastBlockHash := 55, lastBlockParts := 66, stateHash := none,
    commits := [{ round := 0, signature := some (5, .vote 11 0 .commit 55 66) }],
    txs := [.bond [{ address := 7, amount := 10, sequence := 1,
                     signature := some (7, bondSignBytes
                       [{ address := 7, amount := 10, sequence := 1, signature := none,
                          pubKey := .nil }] [⟨9, 10⟩] (.ed 3)),
                     pubKey := .nil }] [⟨9, 10⟩] (.ed 3)] }

/-- Counterexample to C8 as stated: the bonded validator at address 5 owns the
non-zero (and valid) commit slot 0 of the block, the whole `AppendBlock`
succeeds — yet that validator is moved to unbonding by the validator-timeout
pass of this very `AppendBlock`, because a BondTx in the block inserted a new
validator at a smaller address and the LastCommitHeight pass indexed the
post-transaction bonded set, stamping the newcomer instead. -/
theorem committer_timed_out_in_same_appendBlock_counterexample :
    vsGet c8cs.bonded 5 =
      some (0, { address := 5, pubKey := .ed 5, bondHeight := 1, unbondHeight := 0,
                 lastCommitHeight := 0, votingPower := 100, accum := 0 }) ∧
    (c8cb.commits[0]?).map Commit.isZero = some false ∧
    appendBlock c8cs c8cb 66 false =
      .ok { lastBlockHeight := 12, lastBlockHash := 167, lastBlockParts := 66,
            lastBlockTime := 11,
            bonded := [{ address := 3, pubKey := .ed 3, bondHeight := 12, unbondHeight := 0,
                         lastCommitHeight := 11, votingPower := 10, accum := 0 }],
            unbonding := [{ address := 5, pubKey := .ed 5, bondHeight := 1, unbondHeight := 12,
                            lastCommitHeight := 0, votingPower := 100, accum := 0 }],
            accounts := [(7, { address := 7, pubKey := .ed 7, sequence := 1, balance := 90 })],
            validatorInfos := [(3, { address := 3, pubKey := .ed 3, unbondTo := [⟨9, 10⟩],
                                     firstBondHeight := 12, firstBondAmount := 10,
                                     releasedHeight := 0, destroyedHeight := 0,
                                     destroyedAmount := 0 })] } ∧
    vsGet
      ({ lastBlockHeight := 12, lastBlockHash := 167, lastBlockParts := 66,
         lastBlockTime := 11,
         bonded := [{ address := 3, pubKey := .ed 3, bondHeight := 12, unbondHeight := 0,
                      lastCommitHeight := 11, votingPower := 10, accum := 0 }],
         unbonding := [{ address := 5, pubKey := .ed 5, bondHeight := 1, unbondHeight := 12,
                         lastCommitHeight := 0, votingPower := 100, accum := 0 }],
         accounts := [(7, { address := 7, pubKey := .ed 7, sequence := 1, balance := 90 })],
         validatorInfos := [(3, { address := 3, pubKey := .ed 3, unbondTo := [⟨9, 10⟩],
                                  firstBondHeight := 12, firstBondAmount := 10,
                                  releasedHeight := 0, destroyedHeight := 0,
                                  destroyedAmount := 0 })] } : State).unbonding 5 =
      some (0, { address := 5, pubKey := .ed 5, bondHeight := 1, unbondHeight := 12,
                 lastCommitHeight := 0, votingPower := 100, accum := 0 }) := by
  refine ⟨by decide, by decide, by decide, by decide⟩

/-- The post-transaction state of the C8 witness: one bonded validator, no
transactions changed anything. -/
def c8ws : State :=
  { lastBlockHeight := 11, lastBlockHash := 55, lastBlockParts := 66, lastBlockTime := 10,
    bonded := [{ address := 5, pubKey := .ed 5, bondHeight := 1, unbondHeight := 0,
                 lastCommitHeight := 0, votingPower := 100, accum := 0 }],
    unbonding := [], accounts := [], validatorInfos := [] }

/-- The post-LastCommitHeight-pass state of the C8 witness. -/
def c8ws4 : State :=
  { c8ws with bonded := [{ address := 5, pubKey := .ed 5, bondHeight := 1, unbondHeight := 0,
                           lastCommitHeight := 11, votingPower := 100, accum := 0 }] }

/-- Witness for the amended C8 at a concrete input: with no index shift, the
validator at slot 0 gets `last_commit_height = 11` and survives the timeout
pass of the block at height 12. -/
theorem committer_at_post_tx_index_does_not_timeout_witness :
    ({ address := 5, pubKey := .ed 5, bondHeight := 1, unbondHeight := 0,
       lastCommitHeight := 11, votingPower := 100, accum := 0 } : Validator).lastCommitHeight
      = 12 - 1 ∧
    ¬ (w64 (({ address := 5, pubKey := .ed 5, bondHeight := 1, unbondHeight := 0,
               lastCommitHeight := 11, votingPower := 100, accum := 0 } : Validator).lastCommitHeight
          + validatorTimeoutBlocks) < 12) ∧
    ({ address := 5, pubKey := .ed 5, bondHeight := 1, unbondHeight := 0,
       lastCommitHeight := 11, votingPower := 100, accum := 0 } : Validator) ∈ c8ws4.bonded :=
  committer_at_post_tx_index_does_not_timeout 12
    [{ round := 0, signature := some (5, .vote 11 0 .commit 55 66) }]
    c8ws c8ws4 c8ws4 c8ws4 0
    { round := 0, signature := some (5, .vote 11 0 .commit 55 66) }
    { address := 5, pubKey := .ed 5, bondHeight := 1, unbondHeight := 0,
      lastCommitHeight := 11, votingPower := 100, accum := 0 }
    (by decide) (by decide) (by decide) (by decide) (by decide) (by decide) (by decide)
    (by decide) (by decide)

/-! ## C7: SendTx accounting — supporting lemmas -/

/-- The sum of all account balances of a tree. -/
def sumBalances (t : List (Nat × Account)) : Nat :=
  (t.map (fun kv => kv.2.balance)).sum

/-- The balance recorded in a tree at a key, 0 when absent. -/
def balAt (t : List (Nat × Account)) (k : Nat) : Nat :=
  match treeGet t k with
  | some a => a.balance
  | none => 0

theorem sumBalances_treeSet (t : List (Nat × Account)) (k : Nat) (v : Account) :
    sumBalances (treeSet t k v) + balAt t k = sumBalances t + v.balance := by
  induction t with
  | nil => simp [treeSet, sumBalances, balAt, treeGet]
  | cons kv rest ih =>
    obtain ⟨k0, v0⟩ := kv
    by_cases hk : k0 = k
    · subst hk
      simp [treeSet, sumBalances, balAt, treeGet]
      try omega
    · simp only [treeSet, if_neg hk, sumBalances, List.map_cons, List.sum_cons, balAt,
        treeGet, if_neg hk]
      simp only [sumBalances, balAt] at ih
      omega

theorem balAt_treeSet_ne (t : List (Nat × Account)) (k k' : Nat) (v : Account) (h : k' ≠ k) :
    balAt (treeSet t k v) k' = balAt t k' := by
  simp [balAt, treeGet_set_ne t k k' v h]

/-- Write back a working list into a tree, as `UpdateAccounts` does. -/
def updateAll (t : List (Nat × Account)) (w : List (Nat × Account)) : List (Nat × Account) :=
  w.foldl (fun t kv => treeSet t kv.1 kv.2) t

theorem treeGet_updateAll_not_mem (w : List (Nat × Account)) :
    ∀ (t : List (Nat × Account)) (k : Nat), k ∉ w.map Prod.fst →
    treeGet (updateAll t w) k = treeGet t k := by
  induction w with
  | nil => intro t k _; rfl
  | cons kv rest ih =>
    intro t k hk
    simp only [List.map_cons, List.mem_cons] at hk
    rw [show updateAll t (kv :: rest) = updateAll (treeSet t kv.1 kv.2) rest from rfl]
    rw [ih _ k (fun hc => hk (Or.inr hc))]
    exact treeGet_set_ne t kv.1 k kv.2 (fun hc => hk (Or.inl hc))

theorem treeGet_updateAll (w : List (Nat × Account)) :
    ∀ (t : List (Nat × Account)) (k : Nat), (w.map Prod.fst).Nodup →
    treeGet (updateAll t w) k =
      match treeGet w k with
      | some v => some v
      | none => treeGet t k := by
  induction w with
  | nil => intro t k _; rfl
  | cons kv rest ih =>
    intro t k hnd
    obtain ⟨k0, v0⟩ := kv
    simp only [List.map_cons, List.nodup_cons] at hnd
    rw [show updateAll t ((k0, v0) :: rest) = updateAll (treeSet t k0 v0) rest from rfl]
    by_cases hk : k0 = k
    · subst hk
      rw [treeGet_updateAll_not_mem rest _ k0 hnd.1]
      rw [treeGet_set_self]
      rw [treeGet, if_pos rfl]
    · rw [ih _ k hnd.2]
      rw [treeGet, if_neg hk]
      cases treeGet rest k with
      | some v => rfl
      | none => exact treeGet_set_ne t k0 k v0 (fun hc => hk hc.symm)

theorem sumBalances_updateAll (w : List (Nat × Account)) :
    ∀ (t : List (Nat × Account)), (w.map Prod.fst).Nodup →
    sumBalances (updateAll t w) + (w.map (fun kv => balAt t kv.1)).sum =
      sumBalances t + (w.map (fun kv => kv.2.balance)).sum := by
  induction w with
  | nil => intro t _; simp [updateAll]
  | cons kv rest ih =>
    intro t hnd
    simp only [List.map_cons, List.nodup_cons] at hnd
    rw [show updateAll t (kv :: rest) = updateAll (treeSet t kv.1 kv.2) rest from rfl]
    have hrest := ih (treeSet t kv.1 kv.2) hnd.2
    have hpoint : (rest.map (fun kv' => balAt (treeSet t kv.1 kv.2) kv'.1)).sum =
        (rest.map (fun kv' => balAt t kv'.1)).sum := by
      have heq : rest.map (fun kv' => balAt (treeSet t kv.1 kv.2) kv'.1) =
          rest.map (fun kv' => balAt t kv'.1) := by
        apply List.map_congr_left
        intro x hx
        exact balAt_treeSet_ne t kv.1 x.1 kv.2
          (fun hc => hnd.1 (hc ▸ List.mem_map_of_mem _ hx))
      rw [heq]
    have hset := sumBalances_treeSet t kv.1 kv.2
    simp only [List.map_cons, List.sum_cons]
    omega

theorem sum_map_split {α : Type} (l : List α) (f g h : α → Nat)
    (hp : ∀ x ∈ l, f x + g x = h x) :
    (l.map f).sum + (l.map g).sum = (l.map h).sum := by
  induction l with
  | nil => simp
  | cons x rest ih =>
    simp only [List.map_cons, List.sum_cons]
    have h1 := hp x (List.mem_cons_self x rest)
    have h2 := ih (fun y hy => hp y (List.mem_cons_of_mem _ hy))
    omega

/-- The shape of a working-map entry built from a transaction input: same key,
and an account agreeing with the stored one on address, sequence and balance
(the pub-key may have been adopted). -/
def InsEntry (s : State) (i : TxInput) (kv : Nat × Account) : Prop :=
  kv.1 = i.address ∧ ∃ a, s.getAccount i.address = some a ∧
    kv.2.address = a.address ∧ kv.2.sequence = a.sequence ∧ kv.2.balance = a.balance

/-- The shape of a working-map entry built from a transaction output. -/
def OutEntry (s : State) (o : TxOutput) (kv : Nat × Account) : Prop :=
  kv.1 = o.address ∧ kv.2.balance = accBalance0 s o.address

/-- Input canonicalization only rewrites the pub-key field. -/
def CanonIn (i j : TxInput) : Prop :=
  j.address = i.address ∧ j.amount = i.amount ∧ j.sequence = i.sequence ∧
  j.signature = i.signature

theorem forall₂_mem_left {α β : Type} {R : α → β → Prop} {xs : List α} {ys : List β}
    (h : List.Forall₂ R xs ys) : ∀ x ∈ xs, ∃ y ∈ ys, R x y := by
  induction h with
  | nil => simp
  | cons hxy hrest ih =>
    intro z hz
    rcases List.mem_cons.mp hz with h1 | h2
    · exact ⟨_, List.mem_cons_self _ _, h1 ▸ hxy⟩
    · obtain ⟨y, hy, hr⟩ := ih z h2
      exact ⟨y, List.mem_cons_of_mem _ hy, hr⟩

theorem forall₂_map_eq {α β : Type} {R : α → β → Prop} {xs : List α} {ys : List β}
    (f : α → Nat) (g : β → Nat) (hfg : ∀ x y, R x y → g y = f x)
    (h : List.Forall₂ R xs ys) : ys.map g = xs.map f := by
  induction h with
  | nil => rfl
  | cons hxy hrest ih => simp [hfg _ _ hxy, ih]

theorem treeGet_forall₂ {α : Type} {R : α → (Nat × Account) → Prop} (key : α → Nat)
    (hkey : ∀ x kv, R x kv → kv.1 = key x) :
    ∀ {xs : List α} {l : List (Nat × Account)}, List.Forall₂ R xs l →
    (xs.map key).Nodup →
    ∀ x ∈ xs, ∃ kv, R x kv ∧ treeGet l (key x) = some kv.2 := by
  intro xs l h
  induction h with
  | nil => simp
  | cons hxkv hrest ih =>
    rename_i x kv xs' l'
    intro hnd y hy
    simp only [List.map_cons, List.nodup_cons] at hnd
    rcases List.mem_cons.mp hy with h1 | h2
    · subst h1
      refine ⟨kv, hxkv, ?_⟩
      rw [show (kv : Nat × Account) = (kv.1, kv.2) from rfl, treeGet, if_pos (hkey _ _ hxkv)]
    · obtain ⟨kv', hr', hg'⟩ := ih hnd.2 y h2
      refine ⟨kv', hr', ?_⟩
      rw [show (kv : Nat × Account) = (kv.1, kv.2) from rfl, treeGet, if_neg ?_, hg']
      rw [hkey _ _ hxkv]
      intro hc
      exact hnd.1 (hc ▸ List.mem_map_of_mem key h2)

theorem treeGet_append_eq_none {α : Type} {t l : List (Nat × α)} {k : Nat}
    (h : treeGet (t ++ l) k = none) : treeGet t k = none := by
  rw [treeGet_append] at h
  cases hx : treeGet t k with
  | none => rfl
  | some v => rw [hx] at h; cases h

theorem getOrMakeIns_spec (s : State) (ins : List TxInput) :
    ∀ (accs m : List (Nat × Account)) (insC : List TxInput),
    getOrMakeIns s accs ins = .ok (m, insC) →
    (∃ l, m = accs ++ l ∧ List.Forall₂ (InsEntry s) ins l) ∧
    (∀ i ∈ ins, treeGet accs i.address = none) ∧
    (ins.map TxInput.address).Nodup ∧
    List.Forall₂ CanonIn ins insC := by
  induction ins with
  | nil =>
    intro accs m insC h
    rw [getOrMakeIns] at h
    injection h with h
    injection h with h1 h2
    subst h1
    subst h2
    exact ⟨⟨[], by simp, List.Forall₂.nil⟩, by simp, by simp, List.Forall₂.nil⟩
  | cons i rest ih =>
    intro accs m insC h
    rw [getOrMakeIns] at h
    by_cases hdup : (treeGet accs i.address).isSome = true
    · rw [if_pos hdup] at h
      simp at h
    · rw [if_neg hdup] at h
      have hnone : treeGet accs i.address = none := by
        cases hx : treeGet accs i.address with
        | none => rfl
        | some a => rw [hx] at hdup; simp at hdup
      cases hget : s.getAccount i.address with
      | none => simp [hget] at h
      | some a =>
        simp only [hget] at h
        have main : ∀ (a' : Account) (iC : TxInput),
            a'.address = a.address → a'.sequence = a.sequence → a'.balance = a.balance →
            CanonIn i iC →
            (match getOrMakeIns s (accs ++ [(i.address, a')]) rest with
              | .error e => Except.error e
              | .ok (m', insC') => Except.ok (m', iC :: insC')) = .ok (m, insC) →
            (∃ l, m = accs ++ l ∧ List.Forall₂ (InsEntry s) (i :: rest) l) ∧
            (∀ i' ∈ i :: rest, treeGet accs i'.address = none) ∧
            ((i :: rest).map TxInput.address).Nodup ∧
            List.Forall₂ CanonIn (i :: rest) insC := by
          intro a' iC ha1 ha2 ha3 hcanon hm
          cases hrec : getOrMakeIns s (accs ++ [(i.address, a')]) rest with
          | error e => rw [hrec] at hm; cases hm
          | ok p =>
            obtain ⟨m', insC'⟩ := p
            rw [hrec] at hm
            injection hm with hm
            injection hm with hm1 hm2
            subst hm1
            subst hm2
            obtain ⟨⟨l, hl, hfor⟩, hnone', hnd', hcan'⟩ := ih _ _ _ hrec
            refine ⟨⟨(i.address, a') :: l, ?_, ?_⟩, ?_, ?_, ?_⟩
            · rw [hl]
              simp
            · exact List.Forall₂.cons ⟨rfl, a, hget, ha1, ha2, ha3⟩ hfor
            · intro i' hi'
              rcases List.mem_cons.mp hi' with h1 | h2
              · exact h1 ▸ hnone
              · exact treeGet_append_eq_none (hnone' i' h2)
            · simp only [List.map_cons, List.nodup_cons]
              refine ⟨?_, hnd'⟩
              intro hmem
              obtain ⟨i', hi', hia⟩ := List.mem_map.mp hmem
              have := hnone' i' hi'
              rw [hia, treeGet_append] at this
              rw [hnone] at this
              simp [treeGet] at this
            · exact List.Forall₂.cons hcanon hcan'
        cases hapk : a.pubKey with
        | nil =>
          cases hipk : i.pubKey with
          | nil => simp [hapk, hipk] at h
          | ed k =>
            simp only [hapk, hipk] at h
            by_cases haddr : (PubKey.ed k).address ≠ a.address
            · rw [if_pos haddr] at h
              cases h
            · rw [if_neg haddr] at h
              exact main { a with pubKey := .ed k } i rfl rfl rfl ⟨rfl, rfl, rfl, rfl⟩ h
        | ed k0 =>
          simp only [hapk] at h
          exact main a { i with pubKey := .nil } rfl rfl rfl ⟨rfl, rfl, rfl, rfl⟩ h

theorem getOrMakeOuts_spec (s : State) (outs : List TxOutput) :
    ∀ (accs m : List (Nat × Account)),
    getOrMakeOuts s accs outs = .ok m →
    (∃ l, m = accs ++ l ∧ List.Forall₂ (OutEntry s) outs l) ∧
    (∀ o ∈ outs, treeGet accs o.address = none) ∧
    (outs.map TxOutput.address).Nodup := by
  induction outs with
  | nil =>
    intro accs m h
    rw [getOrMakeOuts] at h
    injection h with h
    subst h
    exact ⟨⟨[], by simp, List.Forall₂.nil⟩, by simp, by simp⟩
  | cons o rest ih =>
    intro accs m h
    rw [getOrMakeOuts] at h
    by_cases hdup : (treeGet accs o.address).isSome = true
    · rw [if_pos hdup] at h
      simp at h
    · rw [if_neg hdup] at h
      have hnone : treeGet accs o.address = none := by
        cases hx : treeGet accs o.address with
        | none => rfl
        | some a => rw [hx] at hdup; simp at hdup
      have main : ∀ a' : Account, a'.balance = accBalance0 s o.address →
          getOrMakeOuts s (accs ++ [(o.address, a')]) rest = .ok m →
          (∃ l, m = accs ++ l ∧ List.Forall₂ (OutEntry s) (o :: rest) l) ∧
          (∀ o' ∈ o :: rest, treeGet accs o'.address = none) ∧
          ((o :: rest).map TxOutput.address).Nodup := by
        intro a' hbal hrec
        obtain ⟨⟨l, hl, hfor⟩, hnone', hnd'⟩ := ih _ _ hrec
        refine ⟨⟨(o.address, a') :: l, ?_, ?_⟩, ?_, ?_⟩
        · rw [hl]
          simp
        · exact List.Forall₂.cons ⟨rfl, hbal⟩ hfor
        · intro o' ho'
          rcases List.mem_cons.mp ho' with h1 | h2
          · exact h1 ▸ hnone
          · exact treeGet_append_eq_none (hnone' o' h2)
        · simp only [List.map_cons, List.nodup_cons]
          refine ⟨?_, hnd'⟩
          intro hmem
          obtain ⟨o', ho', hoa⟩ := List.mem_map.mp hmem
          have := hnone' o' ho'
          rw [hoa, treeGet_append] at this
          rw [hnone] at this
          simp [treeGet] at this
      cases hget : s.getAccount o.address with
      | some a =>
        simp only [hget] at h
        exact main a (by simp [accBalance0, hget]) h
      | none =>
        simp only [hget] at h
        exact main _ (by simp [accBalance0, hget]) h

theorem treeSet_map_fst_of_get {α : Type} (t : List (Nat × α)) (k : Nat) (a v : α)
    (h : treeGet t k = some a) :
    (treeSet t k v).map Prod.fst = t.map Prod.fst := by
  induction t with
  | nil => simp [treeGet] at h
  | cons kv rest ih =>
    obtain ⟨k0, v0⟩ := kv
    by_cases hk : k0 = k
    · subst hk
      simp [treeSet]
    · rw [treeGet, if_neg hk] at h
      simp only [treeSet, if_neg hk, List.map_cons]
      rw [ih h]

theorem sum_over_entries (w : List (Nat × Account)) (hnd : (w.map Prod.fst).Nodup) :
    (w.map (fun kv => kv.2.balance)).sum = ((w.map Prod.fst).map (fun k => balAt w k)).sum := by
  induction w with
  | nil => simp
  | cons kv rest ih =>
    obtain ⟨k0, v0⟩ := kv
    simp only [List.map_cons, List.nodup_cons] at hnd
    simp only [List.map_cons, List.sum_cons]
    have h0 : balAt ((k0, v0) :: rest) k0 = v0.balance := by
      simp [balAt, treeGet]
    have hcongr : (rest.map Prod.fst).map (fun k => balAt ((k0, v0) :: rest) k) =
        (rest.map Prod.fst).map (fun k => balAt rest k) := by
      apply List.map_congr_left
      intro k hk
      have : ¬ (k0 = k) := fun hc => hnd.1 (hc ▸ hk)
      simp [balAt, treeGet, this]
    rw [h0, hcongr, ih hnd.2]

theorem adjustByInputs_spec (ins : List TxInput) :
    ∀ (accs accs' : List (Nat × Account)),
    (ins.map TxInput.address).Nodup →
    adjustByInputs accs ins = some accs' →
    accs'.map Prod.fst = accs.map Prod.fst ∧
    (∀ k, k ∉ ins.map TxInput.address → treeGet accs' k = treeGet accs k) ∧
    (∀ i ∈ ins, ∃ a, treeGet accs i.address = some a ∧ i.amount ≤ a.balance ∧
      treeGet accs' i.address =
        some { a with balance := a.balance - i.amount, sequence := w64 (a.sequence + 1) }) ∧
    sumBalances accs' + (ins.map TxInput.amount).sum = sumBalances accs := by
  induction ins with
  | nil =>
    intro accs accs' _ h
    rw [adjustByInputs] at h
    injection h with h
    subst h
    exact ⟨rfl, fun k _ => rfl, by simp, by simp⟩
  | cons i rest ih =>
    intro accs accs' hnd h
    simp only [List.map_cons, List.nodup_cons] at hnd
    rw [adjustByInputs] at h
    cases hga : treeGet accs i.address with
    | none => simp [hga] at h
    | some a =>
      simp only [hga] at h
      by_cases hlt : a.balance < i.amount
      · rw [if_pos hlt] at h
        cases h
      · rw [if_neg hlt] at h
        obtain ⟨K, U, P, S⟩ := ih _ _ hnd.2 h
        have hKacc : (treeSet accs i.address
            { a with balance := a.balance - i.amount,
                     sequence := w64 (a.sequence + 1) }).map Prod.fst = accs.map Prod.fst :=
          treeSet_map_fst_of_get accs i.address a _ hga
        refine ⟨K.trans hKacc, ?_, ?_, ?_⟩
        · intro k hk
          simp only [List.map_cons, List.mem_cons] at hk
          rw [U k (fun hc => hk (Or.inr hc))]
          exact treeGet_set_ne accs i.address k _ (fun hc => hk (Or.inl hc))
        · intro i' hi'
          rcases List.mem_cons.mp hi' with h1 | h2
          · subst h1
            refine ⟨a, hga, Nat.le_of_not_lt hlt, ?_⟩
            rw [U i'.address hnd.1]
            exact treeGet_set_self accs i'.address _
          · obtain ⟨a1, ha1, hle1, hv1⟩ := P i' h2
            refine ⟨a1, ?_, hle1, hv1⟩
            rw [← ha1]
            exact (treeGet_set_ne accs i.address i'.address _
              (fun hc => hnd.1 (hc ▸ List.mem_map_of_mem _ h2))).symm
        · have hset := sumBalances_treeSet accs i.address
            { a with balance := a.balance - i.amount, sequence := w64 (a.sequence + 1) }
          have hba : balAt accs i.address = a.balance := by simp [balAt, hga]
          simp only [List.map_cons, List.sum_cons]
          rw [hba] at hset
          simp only [] at hset
          omega

theorem adjustByOutputs_spec (outs : List TxOutput) :
    ∀ (accs accs' : List (Nat × Account)),
    (outs.map TxOutput.address).Nodup →
    adjustByOutputs accs outs = some accs' →
    accs'.map Prod.fst = accs.map Prod.fst ∧
    (∀ k, k ∉ outs.map TxOutput.address → treeGet accs' k = treeGet accs k) ∧
    (∀ o ∈ outs, ∃ a, treeGet accs o.address = some a ∧
      treeGet accs' o.address = some { a with balance := w64 (a.balance + o.amount) }) := by
  induction outs with
  | nil =>
    intro accs accs' _ h
    rw [adjustByOutputs] at h
    injection h with h
    subst h
    exact ⟨rfl, fun k _ => rfl, by simp⟩
  | cons o rest ih =>
    intro accs accs' hnd h
    simp only [List.map_cons, List.nodup_cons] at hnd
    rw [adjustByOutputs] at h
    cases hga : treeGet accs o.address with
    | none => simp [hga] at h
    | some a =>
      simp only [hga] at h
      obtain ⟨K, U, P⟩ := ih _ _ hnd.2 h
      have hKacc : (treeSet accs o.address
          { a with balance := w64 (a.balance + o.amount) }).map Prod.fst =
          accs.map Prod.fst :=
        treeSet_map_fst_of_get accs o.address a _ hga
      refine ⟨K.trans hKacc, ?_, ?_⟩
      · intro k hk
        simp only [List.map_cons, List.mem_cons] at hk
        rw [U k (fun hc => hk (Or.inr hc))]
        exact treeGet_set_ne accs o.address k _ (fun hc => hk (Or.inl hc))
      · intro o' ho'
        rcases List.mem_cons.mp ho' with h1 | h2
        · subst h1
          refine ⟨a, hga, ?_⟩
          rw [U o'.address hnd.1]
          exact treeGet_set_self accs o'.address _
        · obtain ⟨a1, ha1, hv1⟩ := P o' h2
          refine ⟨a1, ?_, hv1⟩
          rw [← ha1]
          exact (treeGet_set_ne accs o.address o'.address _
            (fun hc => hnd.1 (hc ▸ List.mem_map_of_mem _ h2))).symm

/-- C7: For every SendTx accepted by `ExecTx`: each input account's balance
decreases by exactly that input's amount and its sequence increases by exactly
1; each output account's balance increases by exactly that output's amount
(new output accounts start from 0); the sum of all account balances decreases
by exactly `in_total - out_total`; untouched accounts are unchanged; and if
`out_total > in_total` after successful validation, `ExecTx` returns
`ErrTxInsufficientFunds` with the state unchanged.  (Overflow hypotheses: every
touched sequence and credited balance stays below 2^64.) -/
theorem sendTx_accounting
    (s : State) (ins : List TxInput) (outs : List TxOutput) (s' : State)
    (hseq : ∀ i ∈ ins, ∀ a : Account, s.getAccount i.address = some a →
      a.sequence + 1 < 2 ^ 64)
    (hbal : ∀ o ∈ outs, accBalance0 s o.address + o.amount < 2 ^ 64)
    (hok : execTx s (.send ins outs) = .ok s') :
    (∀ i ∈ ins, ∃ a a' : Account, s.getAccount i.address = some a ∧
        s'.getAccount i.address = some a' ∧
        a'.balance + i.amount = a.balance ∧ a'.sequence = a.sequence + 1) ∧
    (∀ o ∈ outs, ∃ a' : Account, s'.getAccount o.address = some a' ∧
        a'.balance = accBalance0 s o.address + o.amount) ∧
    sumBalances s'.accounts + (ins.map TxInput.amount).sum
      = sumBalances s.accounts + (outs.map TxOutput.amount).sum ∧
    (∀ addr, (∀ i ∈ ins, i.address ≠ addr) → (∀ o ∈ outs, o.address ≠ addr) →
      s'.getAccount addr = s.getAccount addr) ∧
    (∀ (accs : List (Nat × Account)) (insC : List TxInput) (inT outT : Nat),
      getOrMakeAccounts s ins outs = .ok (accs, insC) →
      validateInputsAux accs (sendSignBytes insC outs) insC 0 = .ok inT →
      validateOutputs outs = .ok outT → inT < outT →
      execTx s (.send ins outs) = .err .insufficientFunds s) := by
  have hreject : ∀ (accs : List (Nat × Account)) (insC : List TxInput) (inT outT : Nat),
      getOrMakeAccounts s ins outs = .ok (accs, insC) →
      validateInputsAux accs (sendSignBytes insC outs) insC 0 = .ok inT →
      validateOutputs outs = .ok outT → inT < outT →
      execTx s (.send ins outs) = .err .insufficientFunds s := by
    intro accs insC inT outT h1 h2 h3 h4
    simp [execTx, h1, h2, h3, h4]
  simp only [execTx] at hok
  cases hgoma : getOrMakeAccounts s ins outs with
  | error e => simp [hgoma] at hok
  | ok p =>
  obtain ⟨accs, insC⟩ := p
  simp only [hgoma] at hok
  cases hval : validateInputsAux accs (sendSignBytes insC outs) insC 0 with
  | crash => simp [hval] at hok
  | err e => simp [hval] at hok
  | ok inT =>
  simp only [hval] at hok
  cases hvo : validateOutputs outs with
  | error e => simp [hvo] at hok
  | ok outT =>
  simp only [hvo] at hok
  by_cases hfund : inT < outT
  · simp [hfund] at hok
  · simp only [if_neg hfund] at hok
    cases hadj1 : adjustByInputs accs insC with
    | none => simp [hadj1] at hok
    | some accs1 =>
    simp only [hadj1] at hok
    cases hadj2 : adjustByOutputs accs1 outs with
    | none => simp [hadj2] at hok
    | some accs2 =>
    simp only [hadj2] at hok
    injection hok with hok
    rw [getOrMakeAccounts] at hgoma
    cases hgi : getOrMakeIns s [] ins with
    | error e => rw [hgi] at hgoma; cases hgoma
    | ok q =>
    obtain ⟨mIns, insC0⟩ := q
    simp only [hgi] at hgoma
    cases hgo : getOrMakeOuts s mIns outs with
    | error e => rw [hgo] at hgoma; cases hgoma
    | ok m2 =>
    simp only [hgo] at hgoma
    injection hgoma with hgoma
    injection hgoma with hg1 hg2
    rw [hg2] at hgi
    rw [hg1] at hgo
    have hgoma2 : getOrMakeAccounts s ins outs = Except.ok (accs, insC) := by
      simp only [getOrMakeAccounts, hgi, hgo]
    obtain ⟨⟨lIns, hlIns, hforIns⟩, _, hndIns, hcanon⟩ := getOrMakeIns_spec s ins [] mIns insC hgi
    simp only [List.nil_append] at hlIns
    obtain ⟨⟨lOuts, hlOuts, hforOuts⟩, hnoneOuts, hndOuts⟩ :=
      getOrMakeOuts_spec s outs mIns accs hgo
    rw [hlIns] at hnoneOuts hlOuts
    have haccs : accs = lIns ++ lOuts := hlOuts
    have keysIns : lIns.map Prod.fst = ins.map TxInput.address :=
      forall₂_map_eq _ _ (fun i kv hr => hr.1) hforIns
    have keysOuts : lOuts.map Prod.fst = outs.map TxOutput.address :=
      forall₂_map_eq _ _ (fun o kv hr => hr.1) hforOuts
    have insCaddr : insC.map TxInput.address = ins.map TxInput.address :=
      forall₂_map_eq _ _ (fun i j hr => hr.1) hcanon
    have hndC : (insC.map TxInput.address).Nodup := by rw [insCaddr]; exact hndIns
    have hdisj : ∀ o ∈ outs, o.address ∉ ins.map TxInput.address := by
      intro o ho
      have hno := hnoneOuts o ho
      rw [treeGet_eq_none_iff] at hno
      rw [← keysIns]
      exact hno
    have hdisj' : ∀ i ∈ ins, i.address ∉ outs.map TxOutput.address := by
      intro i hi hc
      obtain ⟨o, ho, hoa⟩ := List.mem_map.mp hc
      exact hdisj o ho (hoa ▸ List.mem_map_of_mem _ hi)
    have hkeysA : accs.map Prod.fst = ins.map TxInput.address ++ outs.map TxOutput.address := by
      rw [haccs, List.map_append, keysIns, keysOuts]
    have hndA : (accs.map Prod.fst).Nodup := by
      rw [hkeysA]
      refine List.Nodup.append hndIns hndOuts ?_
      intro a ha hb
      obtain ⟨o, ho, hoa⟩ := List.mem_map.mp hb
      exact hdisj o ho (hoa ▸ ha)
    obtain ⟨K1, U1, P1, S1⟩ := adjustByInputs_spec insC _ _ hndC hadj1
    obtain ⟨K2, U2, P2⟩ := adjustByOutputs_spec outs _ _ hndOuts hadj2
    have hkeys2 : accs2.map Prod.fst = ins.map TxInput.address ++ outs.map TxOutput.address :=
      (K2.trans K1).trans hkeysA
    have hnd2 : (accs2.map Prod.fst).Nodup := by
      rw [K2.trans K1]
      exact hndA
    have hsacc : s'.accounts = updateAll s.accounts accs2 := by
      rw [← hok]
      rfl
    have hlook : ∀ k, treeGet s'.accounts k =
        match treeGet accs2 k with
        | some v => some v
        | none => treeGet s.accounts k := by
      intro k
      rw [hsacc]
      exact treeGet_updateAll accs2 s.accounts k hnd2
    have hinfact : ∀ i ∈ ins, ∃ a a1 : Account, s.getAccount i.address = some a ∧
        a1.balance = a.balance ∧ a1.sequence = a.sequence ∧
        i.amount ≤ a1.balance ∧
        treeGet accs2 i.address =
          some { a1 with balance := a1.balance - i.amount,
                         sequence := w64 (a1.sequence + 1) } := by
      intro i hi
      obtain ⟨j, hj, hcij⟩ := forall₂_mem_left hcanon i hi
      obtain ⟨a1, ha1, hle1, hv1⟩ := P1 j hj
      obtain ⟨kv, hkv, hgl⟩ := treeGet_forall₂ TxInput.address (fun x kv hr => hr.1)
        hforIns hndIns i hi
      obtain ⟨hk1, a, hga, hca, hcs, hcb⟩ := hkv
      have hm2i : treeGet accs i.address = some kv.2 := by
        rw [haccs, treeGet_append, hgl]
      have haj : j.address = i.address := hcij.1
      rw [haj, hm2i] at ha1
      injection ha1 with ha1
      subst ha1
      refine ⟨a, kv.2, hga, hcb, hcs, hcij.2.1 ▸ hle1, ?_⟩
      have hout : i.address ∉ outs.map TxOutput.address := hdisj' i hi
      rw [U2 i.address hout, ← haj, ← hcij.2.1]
      exact hv1
    have houtfact : ∀ o ∈ outs, ∃ a2 : Account,
        a2.balance = accBalance0 s o.address ∧
        treeGet accs2 o.address = some { a2 with balance := w64 (a2.balance + o.amount) } := by
      intro o ho
      obtain ⟨a2, ha2, hv2⟩ := P2 o ho
      have ha2' : treeGet accs o.address = some a2 := by
        rw [← U1 o.address (by rw [insCaddr]; exact hdisj o ho)]
        exact ha2
      obtain ⟨kv, hkv, hgl⟩ := treeGet_forall₂ TxOutput.address (fun x kv hr => hr.1)
        hforOuts hndOuts o ho
      have hm2o : treeGet accs o.address = some kv.2 := by
        rw [haccs, treeGet_append]
        rw [show treeGet lIns o.address = none from
          (treeGet_eq_none_iff _ _).mpr (by rw [keysIns]; exact hdisj o ho)]
        exact hgl
      rw [hm2o] at ha2'
      injection ha2' with he
      exact ⟨a2, by rw [← he]; exact hkv.2, hv2⟩
    refine ⟨?_, ?_, ?_, ?_, fun ab ib tb ob h1 h2 h3 h4 =>
      hreject ab ib tb ob (hgoma2.trans h1) h2 (hvo.trans h3) h4⟩
    · intro i hi
      obtain ⟨a, a1, hga, hb1, hs1, hle, hv⟩ := hinfact i hi
      refine ⟨a, { a1 with balance := a1.balance - i.amount,
                           sequence := w64 (a1.sequence + 1) }, hga, ?_, ?_, ?_⟩
      · show treeGet s'.accounts i.address = _
        rw [hlook i.address, hv]
      · show a1.balance - i.amount + i.amount = a.balance
        omega
      · show w64 (a1.sequence + 1) = a.sequence + 1
        rw [hs1, w64_eq_of_lt (hseq i hi a hga)]
    · intro o ho
      obtain ⟨a2, hb2, hv2⟩ := houtfact o ho
      refine ⟨{ a2 with balance := w64 (a2.balance + o.amount) }, ?_, ?_⟩
      · show treeGet s'.accounts o.address = _
        rw [hlook o.address, hv2]
      · show w64 (a2.balance + o.amount) = accBalance0 s o.address + o.amount
        rw [hb2, w64_eq_of_lt (hbal o ho)]
    · have hU := sumBalances_updateAll accs2 s.accounts hnd2
      have hA : (accs2.map (fun kv => balAt s.accounts kv.1)).sum
          = (ins.map (fun i => balAt s.accounts i.address)).sum
            + (outs.map (fun o => balAt s.accounts o.address)).sum := by
        have h1 : accs2.map (fun kv => balAt s.accounts kv.1)
            = (accs2.map Prod.fst).map (fun k => balAt s.accounts k) := by
          rw [List.map_map]
          rfl
        rw [h1, hkeys2, List.map_append, List.sum_append, List.map_map, List.map_map]
        rfl
      have hB : (accs2.map (fun kv => kv.2.balance)).sum
          = (ins.map (fun i => balAt accs2 i.address)).sum
            + (outs.map (fun o => balAt accs2 o.address)).sum := by
        rw [sum_over_entries accs2 hnd2, hkeys2, List.map_append, List.sum_append,
          List.map_map, List.map_map]
        rfl
      have hE1 : (ins.map (fun i => balAt accs2 i.address)).sum
          + (ins.map TxInput.amount).sum
          = (ins.map (fun i => balAt s.accounts i.address)).sum := by
        apply sum_map_split
        intro i hi
        obtain ⟨a, a1, hga, hb1, _, hle, hv⟩ := hinfact i hi
        have h1 : balAt accs2 i.address = a1.balance - i.amount := by
          simp [balAt, hv]
        have h2 : balAt s.accounts i.address = a.balance := by
          simp only [balAt]
          rw [show treeGet s.accounts i.address = some a from hga]
        omega
      have hE2 : (outs.map (fun o => balAt s.accounts o.address)).sum
          + (outs.map TxOutput.amount).sum
          = (outs.map (fun o => balAt accs2 o.address)).sum := by
        apply sum_map_split
        intro o ho
        obtain ⟨a2, hb2, hv2⟩ := houtfact o ho
        have h1 : balAt accs2 o.address = w64 (a2.balance + o.amount) := by
          simp [balAt, hv2]
        have h2 : balAt s.accounts o.address = accBalance0 s o.address := rfl
        rw [h1, h2, hb2, w64_eq_of_lt (hbal o ho)]
      have hS' : sumBalances s'.accounts = sumBalances (updateAll s.accounts accs2) := by
        rw [hsacc]
      rw [hS']
      omega
    · intro addr hni hno
      have hnk : treeGet accs2 addr = none := by
        rw [treeGet_eq_none_iff, hkeys2]
        intro hc
        rcases List.mem_append.mp hc with h1 | h2
        · obtain ⟨i, hi, hia⟩ := List.mem_map.mp h1
          exact hni i hi hia
        · obtain ⟨o, ho, hoa⟩ := List.mem_map.mp h2
          exact hno o ho hoa
      show treeGet s'.accounts addr = treeGet s.accounts addr
      rw [hlook addr, hnk]

/-- A concrete account used in the send-accounting witness. -/
def c7a : Account := { address := 7, pubKey := .ed 7, sequence := 0, balance := 100 }

/-- A concrete signed input spending 10 from account 7. -/
def c7i : TxInput :=
  { address := 7, amount := 10, sequence := 1,
    signature := some (7, .send [{ address := 7, amount := 10, sequence := 1, pubKey := .nil }]
      [{ address := 8, amount := 4 }]),
    pubKey := .nil }

/-- A concrete output crediting 4 to the fresh account 8. -/
def c7o : TxOutput := { address := 8, amount := 4 }

/-- A concrete one-account state for the send-accounting witness. -/
def c7s : State :=
  { lastBlockHeight := 0, lastBlockHash := 0, lastBlockParts := 0, lastBlockTime := 0,
    bonded := [], unbonding := [], accounts := [(7, c7a)], validatorInfos := [] }

/-- The state after executing the witness send on `c7s`. -/
def c7s2 : State :=
  { c7s with accounts := [(7, { c7a with sequence := 1, balance := 90 }),
      (8, { address := 8, pubKey := .nil, sequence := 0, balance := 4 })] }

theorem sendTx_accounting_witness :
    (∀ i ∈ [c7i], ∃ a a' : Account, c7s.getAccount i.address = some a ∧
        c7s2.getAccount i.address = some a' ∧
        a'.balance + i.amount = a.balance ∧ a'.sequence = a.sequence + 1) ∧
    (∀ o ∈ [c7o], ∃ a' : Account, c7s2.getAccount o.address = some a' ∧
        a'.balance = accBalance0 c7s o.address + o.amount) ∧
    sumBalances c7s2.accounts + ([c7i].map TxInput.amount).sum
      = sumBalances c7s.accounts + ([c7o].map TxOutput.amount).sum ∧
    (∀ addr, (∀ i ∈ [c7i], i.address ≠ addr) → (∀ o ∈ [c7o], o.address ≠ addr) →
      c7s2.getAccount addr = c7s.getAccount addr) ∧
    (∀ (accs : List (Nat × Account)) (insC : List TxInput) (inT outT : Nat),
      getOrMakeAccounts c7s [c7i] [c7o] = .ok (accs, insC) →
      validateInputsAux accs (sendSignBytes insC [c7o]) insC 0 = .ok inT →
      validateOutputs [c7o] = .ok outT → inT < outT →
      execTx c7s (.send [c7i] [c7o]) = .err .insufficientFunds c7s) :=
  sendTx_accounting c7s [c7i] [c7o] c7s2
    (by
      intro i hi a ha
      simp only [List.mem_singleton] at hi
      subst hi
      have hg : c7s.getAccount c7i.address = some c7a := by decide
      rw [hg] at ha
      injection ha with h
      subst h
      decide)
    (by decide)
    (by decide)

end Tendermint
